import Mathlib

/-!
Verification of the clause segmentation engine of the Lawyerless contract
analyzer (backend/app/services/clause_segmenter.py and
backend/app/services/advanced_clause_extractor.py).

Texts are modelled as `List Char` (Python strings are sequences of unicode
code points, so `List Char` is a faithful model and Python `len` is
`List.length`).  Python floats are modelled as rationals, Python ints as
`Int`/`Nat`.  The helpers in this first section model the Python standard
library primitives the segmenter uses (`str.strip`, `str.splitlines`,
`str.split`, `str.find`, `str.lower`, and the specific `re` patterns
appearing in the source; each regex is rendered as a concrete scanner
equivalent to leftmost non-overlapping matching of that fixed pattern).
All definitions are structurally recursive so that they evaluate inside
the kernel.
-/

abbrev Str := List Char

/-- Unicode white space exactly as recognised by Python `str.isspace`,
`str.strip()` and the regex class `\s`: the code points
9 to 13, 0x1c to 0x1f, 0x20, 0x85, 0xa0, 0x1680, 0x2000 to 0x200a,
0x2028, 0x2029, 0x202f, 0x205f and 0x3000. -/
def pyWs (c : Char) : Bool :=
  let n := c.toNat
  (9 ≤ n && n ≤ 13) || (0x1c ≤ n && n ≤ 0x20) || n == 0x85 || n == 0xa0 ||
    n == 0x1680 || (0x2000 ≤ n && n ≤ 0x200a) || n == 0x2028 || n == 0x2029 ||
    n == 0x202f || n == 0x205f || n == 0x3000

/-- Line boundary code points recognised by Python `str.splitlines`:
10 to 13, 0x1c to 0x1e, 0x85, 0x2028 and 0x2029. -/
def lineBoundary (c : Char) : Bool :=
  let n := c.toNat
  (10 ≤ n && n ≤ 13) || (0x1c ≤ n && n ≤ 0x1e) || n == 0x85 ||
    n == 0x2028 || n == 0x2029

/-- Python `str.lstrip()` (default white space set). -/
def lstripPy (cs : Str) : Str := cs.dropWhile pyWs

/-- Python `str.rstrip()` (default white space set). -/
def rstripPy (cs : Str) : Str := (cs.reverse.dropWhile pyWs).reverse

/-- Python `str.strip()` (default white space set). -/
def stripPy (cs : Str) : Str := rstripPy (lstripPy cs)

/-- Prepend a character to the first fragment of a fragment list (used by
the splitting functions; the empty case only arises when the remainder of
the text produced no fragment at all). -/
def consHead (c : Char) : List Str → List Str
  | [] => [[c]]
  | l :: ls => (c :: l) :: ls

/-- Python `text.split(sep)` for the single-character separator `\n` used
by the segmenter.  An empty string gives `[""]` and a trailing separator
yields a final empty fragment, exactly as in Python. -/
def splitNL : Str → List Str
  | [] => [[]]
  | c :: rest => if c = '\n' then [] :: splitNL rest else consHead c (splitNL rest)

/-- Python `str.splitlines()`: splits on every `lineBoundary` character,
treats `\r\n` as a single boundary, and produces no final empty line for a
trailing boundary (`"".splitlines() = []`, `"a\n".splitlines() = ["a"]`). -/
def splitlinesPy : Str → List Str
  | [] => []
  | '\r' :: '\n' :: rest => [] :: splitlinesPy rest
  | c :: rest =>
    if lineBoundary c then [] :: splitlinesPy rest
    else consHead c (splitlinesPy rest)

/-- Join a list of lines with `\n`, as in Python `"\n".join(lines)`. -/
def joinNL (ls : List Str) : Str := List.intercalate ['\n'] ls

/-- Number of newline characters in a string. -/
def countNL (cs : Str) : Nat := (cs.filter (fun c => c == '\n')).length

/-- Length of the leftmost match of the patterns `\n\s*\n` / `\n\s*\n\s*\n+`
at the head of `cs` (the head must be `\n` and the maximal white-space run
must hold enough newlines): the match extends from the head to the last
`\n` of the maximal `\s`-run, so its length is the run length minus the
trailing non-newline white space of the run. -/
def wsRunSep (cs : Str) : Nat :=
  let run := cs.takeWhile pyWs
  run.length - (run.reverse.takeWhile (fun c => c != '\n')).length

/-- Scanner for `re.sub(r"\n{3,}", "\n\n", cs)`: `pending` counts the
newlines of the maximal run currently being crossed; a run of `k`
newlines is emitted as `min k 2` newlines, which leaves runs of one or
two unchanged and replaces every longer run by exactly two. -/
def collapseNL3Aux (pending : Nat) : Str → Str
  | [] => List.replicate (min pending 2) '\n'
  | c :: rest =>
    if c = '\n' then collapseNL3Aux (pending + 1) rest
    else List.replicate (min pending 2) '\n' ++ c :: collapseNL3Aux 0 rest

/-- Python `re.sub(r"\n{3,}", "\n\n", cs)`: every maximal run of three or
more newline characters is replaced by exactly two. -/
def collapseNL3 (cs : Str) : Str := collapseNL3Aux 0 cs

/-- Fuelled scanner for `re.sub(r"\n\s*\n\s*\n+", "\n\n", cs)`: at each
`\n` whose maximal white-space run contains at least three newlines, the
run up to its last newline is replaced by two newlines.  In the matching
branch the head is `\n`, so `wsRunSep (c :: rest) ≥ 1` and dropping
`wsRunSep (c :: rest)` characters from `c :: rest` is the same as
dropping one fewer from `rest`.  The fuel is only there to make the
recursion structural; it never runs out when it starts at the length of
the text. -/
def collapseWsGo : Nat → Str → Str
  | _, [] => []
  | 0, cs => cs
  | fuel + 1, c :: rest =>
    if c = '\n' ∧ 3 ≤ countNL ((c :: rest).takeWhile pyWs) then
      '\n' :: '\n' :: collapseWsGo fuel (rest.drop (wsRunSep (c :: rest) - 1))
    else c :: collapseWsGo fuel rest

/-- Python `re.sub(r"\n\s*\n\s*\n+", "\n\n", cs)` as applied to clause
bodies by `_create_processed_clauses`. -/
def collapseWsRuns (cs : Str) : Str := collapseWsGo cs.length cs

/-- Fuelled scanner for `re.split(r"\n\s*\n", cs)` with an accumulator for
the current fragment (kept reversed): at each `\n` whose maximal
white-space run contains at least two newlines, the fragment is cut and
scanning resumes after the last newline of the run. -/
def splitBlankGo : Nat → Str → Str → List Str
  | _, acc, [] => [acc.reverse]
  | 0, acc, cs => [acc.reverse ++ cs]
  | fuel + 1, acc, c :: rest =>
    if c = '\n' ∧ 2 ≤ countNL ((c :: rest).takeWhile pyWs) then
      acc.reverse :: splitBlankGo fuel [] (rest.drop (wsRunSep (c :: rest) - 1))
    else splitBlankGo fuel (c :: acc) rest

/-- Python `re.split(r"\n\s*\n", cs)`. -/
def splitBlank (cs : Str) : List Str := splitBlankGo cs.length [] cs

/-- Scanner for `re.sub(r"[ \t]+", " ", cs)`; the flag records whether the
previous character belonged to a space-or-tab run. -/
def collapseSpaceTabAux (inRun : Bool) : Str → Str
  | [] => []
  | c :: rest =>
    if c = ' ' ∨ c = '\t' then
      if inRun then collapseSpaceTabAux true rest
      else ' ' :: collapseSpaceTabAux true rest
    else c :: collapseSpaceTabAux false rest

/-- Python `re.sub(r"[ \t]+", " ", cs)`: runs of spaces and tabs collapse
to a single space. -/
def collapseSpaceTab (cs : Str) : Str := collapseSpaceTabAux false cs

/-- Replacement of the non-breaking space by an ordinary space, the first
step of `normalize_text` (`text.replace("\xa0", " ")`). -/
def nbspToSpace (c : Char) : Char := if c = '\xa0' then ' ' else c

/-- The advanced extractor function `normalize_text`: replace NBSP by a
space, right-strip every line (joining the `splitlines` fragments with
`\n`), then collapse runs of three or more newlines to two. -/
def normalize_text (cs : Str) : Str :=
  collapseNL3 (joinNL ((splitlinesPy (cs.map nbspToSpace)).map rstripPy))

/-- Python slice `text[s:e]` for non-negative indices. -/
def pySlice (text : Str) (s e : Nat) : Str := (text.drop s).take (e - s)

/-- Bounded linear search used to model Python `str.find(sub, start)`. -/
def pyFindRec (hay needle : Str) : Nat → Nat → Option Nat
  | _, 0 => none
  | i, fuel + 1 =>
    if needle.isPrefixOf (hay.drop i) then some i
    else pyFindRec hay needle (i + 1) fuel

/-- Python `hay.find(needle, start)`: the least index `i ≥ start` at which
`needle` occurs in `hay`, `none` when there is none (Python returns -1). -/
def pyFind (hay needle : Str) (start : Nat) : Option Nat :=
  pyFindRec hay needle start (hay.length + 1 - start)

/-- Scanner for Python `str.split()` with no argument, which also gives
the word list of `re.split(r"\s+", s)` with empty fragments removed: the
maximal runs of non white-space characters.  `cur` holds the current word
reversed. -/
def wordsAux (cur : Str) : Str → List Str
  | [] => if cur = [] then [] else [cur.reverse]
  | c :: rest =>
    if pyWs c then
      if cur = [] then wordsAux [] rest else cur.reverse :: wordsAux [] rest
    else wordsAux (c :: cur) rest

/-- Python `str.split()` with no argument. -/
def wordsPy (cs : Str) : List Str := wordsAux [] cs

/-- Python `str.lower()` restricted to the Basic Latin and Latin-1 letters
that can occur here (the stopword test and the page-marker test only
compare against ASCII and Latin-1 strings). -/
def pyLower (c : Char) : Char :=
  let n := c.toNat
  if ('A' ≤ c && c ≤ 'Z') || (0xc0 ≤ n && n ≤ 0xde && n != 0xd7) then
    Char.ofNat (n + 32)
  else c

/-- Python `str.isalpha` on the Basic Latin and Latin-1 range (ASCII
letters, the letter-like signs 0xaa, 0xb5, 0xba, and the Latin-1 letters
0xc0 to 0xff excluding the multiplication and division signs). -/
def pyIsAlpha (c : Char) : Bool :=
  let n := c.toNat
  ('a' ≤ c && c ≤ 'z') || ('A' ≤ c && c ≤ 'Z') ||
    n == 0xaa || n == 0xb5 || n == 0xba ||
    (0xc0 ≤ n && n ≤ 0xff && n != 0xd7 && n != 0xf7)

/-- Python `str.isupper` for a single character, on the same range. -/
def pyIsUpper (c : Char) : Bool :=
  let n := c.toNat
  ('A' ≤ c && c ≤ 'Z') || (0xc0 ≤ n && n ≤ 0xde && n != 0xd7)

/-- ASCII digit, modelling the `\d` class on the inputs at hand. -/
def isDigitChar (c : Char) : Bool := '0' ≤ c && c ≤ '9'

/-- Decimal representation of a natural number, for the f-string
interpolation of paragraph indices. -/
def natToStr (n : Nat) : Str := Nat.toDigits 10 n

example : splitNL "a\nb\n".data = ["a".data, "b".data, []] := by decide
example : splitNL [] = [[]] := by decide
example : splitlinesPy [] = [] := by decide
example : splitlinesPy "a\n".data = ["a".data] := by decide
example : splitlinesPy "a\r\nb\n\n".data = ["a".data, "b".data, []] := by decide
example : collapseNL3 "a\n\n\n\nb\n\n".data = "a\n\nb\n\n".data := by decide
example : collapseWsRuns "\n \n \n x".data = "\n\n x".data := by decide
example : collapseWsRuns "a\n \nb".data = "a\n \nb".data := by decide
example : splitBlank "a\n  \nb\n\nc".data = ["a".data, "b".data, "c".data] := by decide
example : splitBlank "a\n \n \nb".data = ["a".data, "b".data] := by decide
example : collapseSpaceTab "a  \t b".data = "a b".data := by decide
example : stripPy "  x ".data = "x".data := by decide
example : normalize_text "\n\n".data = "\n".data := by decide
example : normalize_text "\n".data = [] := by decide
example : pyFind "abcabc".data "bc".data 2 = some 4 := by decide
example : wordsPy "  aa b ".data = ["aa".data, "b".data] := by decide
example : natToStr 12 = "12".data := by decide
example : pyLower 'Á' = 'á' := by decide

/-!
MD5, as used by `hashlib.md5(...).hexdigest()` for clause identifiers.
Implemented over byte lists with `Nat` arithmetic modulo `2 ^ 32`; the
test vectors of RFC 1321 are checked below by evaluation.
-/

/-- UTF-8 encoding of one code point (Python `str.encode()`). -/
def utf8Encode (c : Char) : List Nat :=
  let n := c.toNat
  if n < 0x80 then [n]
  else if n < 0x800 then
    [0xc0 + n / 64, 0x80 + n % 64]
  else if n < 0x10000 then
    [0xe0 + n / 4096, 0x80 + (n / 64) % 64, 0x80 + n % 64]
  else
    [0xf0 + n / 262144, 0x80 + (n / 4096) % 64, 0x80 + (n / 64) % 64, 0x80 + n % 64]

/-- UTF-8 encoding of a string. -/
def utf8Bytes (cs : Str) : List Nat := (cs.map utf8Encode).flatten

/-- The 64 MD5 sine constants `floor(abs(sin(i + 1)) * 2 ^ 32)`. -/
def md5K : List Nat :=
  [0xd76aa478, 0xe8c7b756, 0x242070db, 0xc1bdceee,
   0xf57c0faf, 0x4787c62a, 0xa8304613, 0xfd469501,
   0x698098d8, 0x8b44f7af, 0xffff5bb1, 0x895cd7be,
   0x6b901122, 0xfd987193, 0xa679438e, 0x49b40821,
   0xf61e2562, 0xc040b340, 0x265e5a51, 0xe9b6c7aa,
   0xd62f105d, 0x02441453, 0xd8a1e681, 0xe7d3fbc8,
   0x21e1cde6, 0xc33707d6, 0xf4d50d87, 0x455a14ed,
   0xa9e3e905, 0xfcefa3f8, 0x676f02d9, 0x8d2a4c8a,
   0xfffa3942, 0x8771f681, 0x6d9d6122, 0xfde5380c,
   0xa4beea44, 0x4bdecfa9, 0xf6bb4b60, 0xbebfbc70,
   0x289b7ec6, 0xeaa127fa, 0xd4ef3085, 0x04881d05,
   0xd9d4d039, 0xe6db99e5, 0x1fa27cf8, 0xc4ac5665,
   0xf4292244, 0x432aff97, 0xab9423a7, 0xfc93a039,
   0x655b59c3, 0x8f0ccc92, 0xffeff47d, 0x85845dd1,
   0x6fa87e4f, 0xfe2ce6e0, 0xa3014314, 0x4e0811a1,
   0xf7537e82, 0xbd3af235, 0x2ad7d2bb, 0xeb86d391]

/-- The 64 MD5 per-round left-rotation amounts. -/
def md5S : List Nat :=
  [7, 12, 17, 22, 7, 12, 17, 22, 7, 12, 17, 22, 7, 12, 17, 22,
   5, 9, 14, 20, 5, 9, 14, 20, 5, 9, 14, 20, 5, 9, 14, 20,
   4, 11, 16, 23, 4, 11, 16, 23, 4, 11, 16, 23, 4, 11, 16, 23,
   6, 10, 15, 21, 6, 10, 15, 21, 6, 10, 15, 21, 6, 10, 15, 21]

/-- Left rotation of a 32-bit word. -/
def rotl32 (x n : Nat) : Nat := (x * 2 ^ n + x / 2 ^ (32 - n)) % 2 ^ 32

/-- Little-endian byte serialisation of `n` on `k` bytes. -/
def bytesLE : Nat → Nat → List Nat
  | 0, _ => []
  | k + 1, n => n % 256 :: bytesLE k (n / 256)

/-- The 16 little-endian 32-bit words of a 64-byte chunk. -/
def md5Word (chunk : List Nat) (j : Nat) : Nat :=
  chunk.getD (4 * j) 0 + 256 * chunk.getD (4 * j + 1) 0 +
    65536 * chunk.getD (4 * j + 2) 0 + 16777216 * chunk.getD (4 * j + 3) 0

/-- One MD5 round. -/
def md5Round (chunk : List Nat) (st : Nat × Nat × Nat × Nat) (i : Nat) :
    Nat × Nat × Nat × Nat :=
  match st with
  | (a, b, c, d) =>
    let fg : Nat × Nat :=
      if i < 16 then ((b &&& c) ||| ((b ^^^ 0xffffffff) &&& d), i)
      else if i < 32 then ((d &&& b) ||| ((d ^^^ 0xffffffff) &&& c), (5 * i + 1) % 16)
      else if i < 48 then (b ^^^ c ^^^ d, (3 * i + 5) % 16)
      else (c ^^^ (b ||| (d ^^^ 0xffffffff)), (7 * i) % 16)
    let f2 := (fg.1 + a + md5K.getD i 0 + md5Word chunk fg.2) % 2 ^ 32
    (d, (b + rotl32 f2 (md5S.getD i 0)) % 2 ^ 32, b, c)

/-- Processing of one 64-byte chunk. -/
def md5Chunk (st : Nat × Nat × Nat × Nat) (chunk : List Nat) :
    Nat × Nat × Nat × Nat :=
  match st with
  | (a0, b0, c0, d0) =>
    match (List.range 64).foldl (md5Round chunk) (a0, b0, c0, d0) with
    | (a, b, c, d) =>
      ((a0 + a) % 2 ^ 32, (b0 + b) % 2 ^ 32, (c0 + c) % 2 ^ 32, (d0 + d) % 2 ^ 32)

/-- Split the padded message into 64-byte chunks. -/
def chunksGo : Nat → List Nat → List (List Nat)
  | _, [] => []
  | 0, l => [l]
  | fuel + 1, l => l.take 64 :: chunksGo fuel (l.drop 64)

/-- MD5 padding: a 0x80 byte, zeros up to 56 modulo 64, then the bit
length on 8 little-endian bytes. -/
def md5Pad (msg : List Nat) : List Nat :=
  msg ++ [0x80] ++ List.replicate ((119 - msg.length % 64) % 64) 0 ++
    bytesLE 8 (msg.length * 8 % 2 ^ 64)

/-- MD5 digest of a byte list, as 16 bytes. -/
def md5Digest (msg : List Nat) : List Nat :=
  let padded := md5Pad msg
  match (chunksGo padded.length padded).foldl md5Chunk
      (0x67452301, 0xefcdab89, 0x98badcfe, 0x10325476) with
  | (a, b, c, d) => bytesLE 4 a ++ bytesLE 4 b ++ bytesLE 4 c ++ bytesLE 4 d

/-- Lowercase hexadecimal digit. -/
def hexDigit (n : Nat) : Char :=
  if n < 10 then Char.ofNat (48 + n) else Char.ofNat (87 + n)

/-- Lowercase hexadecimal rendering of a byte list. -/
def bytesHex (bs : List Nat) : Str :=
  (bs.map (fun b => [hexDigit (b / 16), hexDigit (b % 16)])).flatten

/-- Python `hashlib.md5(s.encode()).hexdigest()`. -/
def md5Hex (cs : Str) : Str := bytesHex (md5Digest (utf8Bytes cs))

example : md5Hex [] = "d41d8cd98f00b204e9800998ecf8427e".data := by decide
example : md5Hex "abc".data = "900150983cd24fb0d6963f7d28e17f72".data := by decide
example : md5Hex "d_numbered_1_Texto aqui".data =
    "eee7feaa5bdfc705e36eeca480e9f453".data := by decide

/-!
Data model (backend/app/models.py).  Only the fields the segmentation
engine reads or writes are modelled; the unread metadata fields
(filename, dates, ...) are omitted.  `page_number` is an `Int` because
the Python field is a plain int.
-/

structure BoundingBox where
  x0 : ℚ
  x1 : ℚ
  top : ℚ
  bottom : ℚ
  page_number : Int
  page_height : ℚ
deriving DecidableEq, Repr

structure ProcessedClause where
  clause_id : Str
  text : Str
  coordinates : BoundingBox
  title : Option Str
  level : Nat
  parent_clause_id : Option Str
  clause_number : Option Str
deriving DecidableEq, Repr

structure PDFMetadata where
  page_count : Nat
deriving DecidableEq, Repr

structure PDFExtractionResult where
  document_id : Str
  metadata : PDFMetadata
  clauses : List ProcessedClause
  full_text : Str
deriving DecidableEq, Repr

/-- The dataclass `ClauseMatch` of clause_segmenter.py.  Confidences are
the exact decimal constants of the source, as rationals. -/
structure ClauseMatch where
  start_pos : Nat
  end_pos : Nat
  text : Str
  title : Option Str
  number : Option Str
  level : Nat
  pattern_type : Str
  confidence : ℚ
deriving DecidableEq, Repr

/-!
ClauseSegmenter (backend/app/services/clause_segmenter.py).  The regex
boundary detector `_detect_clause_boundaries` is kept abstract: the
pipeline `segment_clauses` takes it as a function argument `detect`,
because every claim about the pipeline conditions only on the shape of
its output (empty or not).  The conflict resolver
`_remove_overlapping_matches` and everything downstream of detection is
modelled concretely.
-/

/-- Character range overlap test of `_remove_overlapping_matches`:
`match.start_pos < existing.end_pos and match.end_pos > existing.start_pos`. -/
def overlapB (m e : ClauseMatch) : Bool :=
  decide (m.start_pos < e.end_pos ∧ e.start_pos < m.end_pos)

/-- Insertion step of a stable insertion sort: `x` is placed before the
first element `y` with `le x y`.  Since any two stable sorts for the same
total preorder agree, this models the (stable) Python `list.sort`. -/
def insertSortedBy {α : Type} (le : α → α → Bool) (x : α) : List α → List α
  | [] => [x]
  | y :: ys => if le x y then x :: y :: ys else y :: insertSortedBy le x ys

/-- Stable insertion sort. -/
def sortBy {α : Type} (le : α → α → Bool) : List α → List α
  | [] => []
  | x :: xs => insertSortedBy le x (sortBy le xs)

/-- Sort key `(m.start_pos, -m.confidence)` of
`_remove_overlapping_matches`, as a boolean total preorder. -/
def matchKeyLE (a b : ClauseMatch) : Bool :=
  decide (a.start_pos < b.start_pos) ||
    (decide (a.start_pos = b.start_pos) && decide (b.confidence ≤ a.confidence))

/-- Sort key `m.start_pos` used by `segment_clauses` before building the
processed clauses. -/
def startKeyLE (a b : ClauseMatch) : Bool := decide (a.start_pos ≤ b.start_pos)

/-- Inner loop of `_remove_overlapping_matches` over the accepted list:
stops at the first accepted match overlapping `m`; a lower-confidence one
is removed (`list.remove` + `break`, flag stays false), otherwise the
flag is set.  Returns the updated accepted list and the `overlaps` flag. -/
def scanFiltered (m : ClauseMatch) : List ClauseMatch → List ClauseMatch × Bool
  | [] => ([], false)
  | e :: rest =>
    if overlapB m e then
      if decide (e.confidence < m.confidence) then (rest, false)
      else (e :: rest, true)
    else
      let p := scanFiltered m rest
      (e :: p.1, p.2)

/-- Body of the outer loop of `_remove_overlapping_matches`: after the
scan, the candidate is appended unless the `overlaps` flag was set. -/
def resolveInsert (filtered : List ClauseMatch) (m : ClauseMatch) : List ClauseMatch :=
  let p := scanFiltered m filtered
  if p.2 then p.1 else p.1 ++ [m]

/-- `ClauseSegmenter._remove_overlapping_matches`: sort by
`(start_pos, -confidence)`, then greedily accept, evicting an accepted
lower-confidence overlapping match and discarding the candidate when the
overlapping accepted match has higher or equal confidence. -/
def remove_overlapping_matches (ms : List ClauseMatch) : List ClauseMatch :=
  match ms with
  | [] => []
  | _ => (sortBy matchKeyLE ms).foldl resolveInsert []

/-- `ClauseSegmenter._generate_clause_id`: md5 of
`documentId_patternType_number-or-unnumbered_first-200-chars`, truncated
to 12 hex digits and prefixed. -/
def generate_clause_id (text : Str) (number : Option Str) (pattern_type : Str)
    (document_id : Str) : Str :=
  let content_sample := stripPy (text.take 200)
  let number_part := number.getD "unnumbered".data
  let id_string := document_id ++ "_".data ++ pattern_type ++ "_".data ++
    number_part ++ "_".data ++ content_sample
  "clause_".data ++ pattern_type ++ "_".data ++ (md5Hex id_string).take 12

/-- `ClauseSegmenter._estimate_clause_coordinates`: proportional mapping
of the character span onto US-Letter pages.  Python floats are modelled
as exact rationals and `int()` of the non-negative quotient as the floor. -/
def estimate_clause_coordinates (start_pos end_pos : Nat) (full_text : Str)
    (page_count : Nat) : BoundingBox :=
  let total_chars := full_text.length
  if total_chars = 0 ∨ page_count = 0 then
    { x0 := 0, x1 := 612, top := 0, bottom := 792, page_number := 0, page_height := 792 }
  else
    let chars_per_page : ℚ := (total_chars : ℚ) / (page_count : ℚ)
    let estimated_page : Int := min ⌊(start_pos : ℚ) / chars_per_page⌋ ((page_count : Int) - 1)
    let page_start_char : ℚ := (estimated_page : ℚ) * chars_per_page
    let char_in_page : ℚ := (start_pos : ℚ) - page_start_char
    let position_ratio : ℚ := if 0 < chars_per_page then char_in_page / chars_per_page else 0
    let estimated_top : ℚ := position_ratio * 792
    let clause_length : ℚ := (end_pos : ℚ) - (start_pos : ℚ)
    let estimated_height : ℚ := min (clause_length / chars_per_page * 792) (792 / 4)
    { x0 := 50, x1 := 612 - 50, top := estimated_top,
      bottom := min (estimated_top + estimated_height) 792,
      page_number := estimated_page, page_height := 792 }

/-- Python truthiness of an optional string. -/
def optTruthy (t : Option Str) : Bool :=
  match t with
  | some s => !s.isEmpty
  | none => false

/-- `ClauseSegmenter._create_clause_title`. -/
def create_clause_title (m : ClauseMatch) : Str :=
  let title := stripPy (m.title.getD [])
  let pre : Str :=
    if m.pattern_type = "clausula".data then "CLÁUSULA".data
    else if m.pattern_type = "secao".data then "SEÇÃO".data
    else if m.pattern_type = "artigo".data then "ARTIGO".data
    else if m.pattern_type = "paragrafo".data then "PARÁGRAFO".data
    else if m.pattern_type = "numbered".data then "ITEM".data
    else if m.pattern_type = "roman".data then "SEÇÃO".data
    else if m.pattern_type = "letter".data then "ALÍNEA".data
    else "CLÁUSULA".data
  match m.number with
  | some n =>
    if !title.isEmpty then pre ++ " ".data ++ n ++ " - ".data ++ title
    else pre ++ " ".data ++ n
  | none =>
    if !title.isEmpty then pre ++ " - ".data ++ title
    else pre

/-- Character offset of line `idx` in the line list of `text.split("\n")`
(each line counts its length plus one for the removed newline). -/
def lineOffset (lines : List Str) (idx : Nat) : Nat :=
  ((lines.take idx).map (fun l => l.length + 1)).sum

/-- Test `match.number and line.strip().startswith(match.number)` of the
numbered-clause realignment loops. -/
def lineMatchesNumber (n : Option Str) (line : Str) : Bool :=
  optTruthy n && (n.getD []).isPrefixOf (stripPy line)

/-- Span computation of `_create_processed_clauses` for one match, given
the following match if any: numbered clauses are realigned to the first
line whose stripped text starts with the clause number, and their end to
the line of the next numbered clause; otherwise the span runs from the
match start to the next match start or the end of the text. -/
def clauseSpan (full_text : Str) (m : ClauseMatch) (next? : Option ClauseMatch) :
    Nat × Nat :=
  if m.pattern_type = "numbered".data then
    let lines := splitNL full_text
    match lines.findIdx? (lineMatchesNumber m.number) with
    | some idx =>
      let s := lineOffset lines idx
      let e :=
        match next? with
        | some nm =>
          if nm.pattern_type = "numbered".data then
            match (lines.drop (idx + 1)).findIdx? (lineMatchesNumber nm.number) with
            | some k => lineOffset lines (idx + 1 + k)
            | none => nm.start_pos
          else nm.start_pos
        | none => full_text.length
      (s, e)
    | none =>
      (m.start_pos,
       match next? with
       | some nm => nm.start_pos
       | none => full_text.length)
  else
    (m.start_pos,
     match next? with
     | some nm => nm.start_pos
     | none => full_text.length)

/-- Loop body of `ClauseSegmenter._create_processed_clauses` over the
position-sorted matches: compute the span, skip clauses whose stripped
text is empty, normalise the text, and build the `ProcessedClause`. -/
def createClausesGo (full_text document_id : Str) (page_count : Nat) :
    List ClauseMatch → List ProcessedClause
  | [] => []
  | m :: rest =>
    let se := clauseSpan full_text m rest.head?
    let clause_text0 := stripPy (pySlice full_text se.1 se.2)
    if clause_text0.isEmpty then createClausesGo full_text document_id page_count rest
    else
      let clause_text := collapseSpaceTab (collapseWsRuns clause_text0)
      let title :=
        if m.pattern_type = "numbered".data ∧ optTruthy m.title then
          m.number.getD "None".data ++ ". ".data ++ stripPy (m.title.getD [])
        else create_clause_title m
      { clause_id := generate_clause_id clause_text m.number m.pattern_type document_id,
        text := clause_text,
        coordinates := estimate_clause_coordinates se.1 se.2 full_text page_count,
        title := some title,
        level := m.level,
        parent_clause_id := none,
        clause_number := m.number } :: createClausesGo full_text document_id page_count rest

/-- `ClauseSegmenter._create_processed_clauses`. -/
def create_processed_clauses (clause_matches : List ClauseMatch) (full_text : Str)
    (document_id : Str) (page_count : Nat) : List ProcessedClause :=
  createClausesGo full_text document_id page_count clause_matches

/-- Test for the page-marker regex `^---\s*Página\s+\d+\s*---$` used by
the paragraph fallback. -/
def isPageMarker (p : Str) : Bool :=
  "---".data.isPrefixOf p &&
    (let r2 := (p.drop 3).dropWhile pyWs
     "Página".data.isPrefixOf r2 &&
       (let r3 := r2.drop 6
        (match r3.head? with
         | some c => pyWs c
         | none => false) &&
          (let r4 := r3.dropWhile pyWs
           (match r4.head? with
            | some c => isDigitChar c
            | none => false) &&
             (let r5 := (r4.dropWhile isDigitChar).dropWhile pyWs
              decide (r5 = "---".data)))))

/-- Paragraph filter of `_create_paragraph_based_clauses`: strictly more
than 50 characters, not a page marker, and not starting with `página`
once lowercased. -/
def validParagraph (p : Str) : Bool :=
  decide (50 < p.length) && !isPageMarker p &&
    !("página".data.isPrefixOf (p.map pyLower))

/-- The stripped paragraphs of the blank-line split that pass
`validParagraph`. -/
def valid_paragraphs (full_text : Str) : List Str :=
  ((splitBlank (stripPy full_text)).map stripPy).filter validParagraph

/-- Loop of `_create_paragraph_based_clauses` over the valid paragraphs,
tracking the enumeration index and the running character position used by
`full_text.find(paragraph, char_position)` (falling back to the running
position when `find` fails, as the source does with -1). -/
def paraGo (full_text document_id : Str) (page_count : Nat) :
    Nat → Nat → List Str → List ProcessedClause
  | _, _, [] => []
  | i, char_position, para :: rest =>
    let para_start :=
      match pyFind full_text para char_position with
      | some f => f
      | none => char_position
    let para_end := para_start + para.length
    let t0 := stripPy (para.take 50)
    let t1 := if 50 < para.length then t0 ++ "...".data else t0
    { clause_id := "para_".data ++ document_id ++ "_".data ++ natToStr (i + 1) ++
        "_".data ++ (md5Hex (para.take 100)).take 8,
      text := para,
      coordinates := estimate_clause_coordinates para_start para_end full_text page_count,
      title := some ("Parágrafo ".data ++ natToStr (i + 1) ++ ": ".data ++ t1),
      level := 1,
      parent_clause_id := none,
      clause_number := none } ::
      paraGo full_text document_id page_count (i + 1) para_end rest

/-- `ClauseSegmenter._create_paragraph_based_clauses`: split on blank
lines, keep the valid paragraphs, and return nothing unless at least two
remain. -/
def create_paragraph_based_clauses (er : PDFExtractionResult) : List ProcessedClause :=
  let vp := valid_paragraphs er.full_text
  if vp.length ≤ 1 then []
  else paraGo er.full_text er.document_id er.metadata.page_count 0 0 vp

/-- `ClauseSegmenter._create_single_clause`: one clause holding the whole
text, reusing the coordinates of a preliminary clause of the extraction
result when one exists and a full-page box otherwise. -/
def create_single_clause (er : PDFExtractionResult) : List ProcessedClause :=
  let coordinates :=
    match er.clauses with
    | c :: _ => c.coordinates
    | [] => { x0 := 0, x1 := 612, top := 0, bottom := 792,
              page_number := 0, page_height := 792 : BoundingBox }
  [{ clause_id := "single_clause_".data ++ er.document_id,
     text := er.full_text,
     coordinates := coordinates,
     title := some "Documento Completo".data,
     level := 1,
     parent_clause_id := none,
     clause_number := none }]

/-- `ClauseSegmenter.segment_clauses`, with the regex boundary detector
abstracted as `detect`: empty stripped text short-circuits to the empty
list; with no detected boundary the paragraph fallback is used when it
yields more than one clause and the single-clause fallback otherwise;
with boundaries, the matches are sorted by position, converted to
processed clauses, and empty-texted clauses are filtered out. -/
def segment_clauses (detect : Str → List ClauseMatch) (er : PDFExtractionResult) :
    List ProcessedClause :=
  if (stripPy er.full_text).isEmpty then []
  else
    let clause_matches := detect er.full_text
    if clause_matches.isEmpty then
      let paragraph_clauses := create_paragraph_based_clauses er
      if 1 < paragraph_clauses.length then paragraph_clauses
      else create_single_clause er
    else
      (create_processed_clauses (sortBy startKeyLE clause_matches) er.full_text
          er.document_id er.metadata.page_count).filter
        (fun c => !(stripPy c.text).isEmpty)

/-!
Advanced clause extractor (backend/app/services/advanced_clause_extractor.py):
the section record, the section segmenter, the header plausibility filter
with its ratio helpers, and the coordinate estimator.
-/

/-- The dataclass `Secao`; the Python field `end` is called `stop` here
because `end` is reserved in Lean. -/
structure Secao where
  number : Str
  title : Str
  text : Str
  start : Nat
  stop : Nat
deriving DecidableEq, Repr

/-- Loop of `segment_sections`: section `i` runs from its header start to
the start of header `i + 1`, the last one to the end of the text; the
body is the stripped slice. -/
def segmentSectionsGo (text : Str) : List (Nat × Str × Str) → List Secao
  | [] => []
  | (s, num, title) :: rest =>
    let e :=
      match rest.head? with
      | some h2 => h2.1
      | none => text.length
    { number := num, title := title, text := stripPy (pySlice text s e),
      start := s, stop := e } :: segmentSectionsGo text rest

/-- `segment_sections(text, headers)` of the advanced extractor. -/
def segment_sections (text : Str) (headers : List (Nat × Str × Str)) : List Secao :=
  match headers with
  | [] => []
  | _ => segmentSectionsGo text headers

/-- The Portuguese stopwords `_PT_STOPWORDS` used for title-case
detection. -/
def ptStopwords : List Str :=
  ["de".data, "da".data, "do".data, "das".data, "dos".data, "e".data,
   "a".data, "o".data, "as".data, "os".data, "para".data, "por".data,
   "em".data, "no".data, "na".data, "nos".data, "nas".data, "um".data,
   "uma".data]

/-- `_upper_ratio`: the share of upper-case characters among the
alphabetic characters. -/
def upper_ratio (s : Str) : ℚ :=
  let letters := s.filter pyIsAlpha
  if letters.isEmpty then 0
  else ((letters.filter pyIsUpper).length : ℚ) / (letters.length : ℚ)

/-- Word test of `_titlecase_ratio`: a recognised stopword once
lowercased, or a capitalised first character. -/
def goodTitleWord (w : Str) : Bool :=
  ptStopwords.contains (w.map pyLower) ||
    (match w.head? with
     | some c => pyIsUpper c
     | none => false)

/-- `_titlecase_ratio`: the share of stopword-or-capitalised words. -/
def titlecase_ratio (s : Str) : ℚ :=
  let ws := wordsPy (stripPy s)
  if ws.isEmpty then 0
  else ((ws.filter goodTitleWord).length : ℚ) / (ws.length : ℚ)

/-- Trailing-punctuation rejection test `title.endswith((".", ";", ","))`. -/
def endsPunct3 (t : Str) : Bool :=
  match t.getLast? with
  | some c => c = '.' ∨ c = ';' ∨ c = ','
  | none => false

/-- Test `re.search(r"[.:;!?]\s*$", prev_line.strip())`: since the
argument is stripped, the search succeeds exactly when the stripped line
is non-empty and ends with sentence-terminal punctuation. -/
def prevEndsSentencePunct (prev_line : Str) : Bool :=
  match (stripPy prev_line).getLast? with
  | some c => c = '.' ∨ c = ':' ∨ c = ';' ∨ c = '!' ∨ c = '?'
  | none => false

/-- `_is_probable_header(line, prev_line, next_line, title)`: reject long
titles and trailing punctuation; accept a candidate isolated by a blank
line or looking upper-case or title-case, except that when the previous
line is non-blank and does not end a sentence, blank-line isolation alone
is not enough.  The `line` argument is unused by the source body and kept
for signature fidelity. -/
def is_probable_header (line prev_line next_line title : Str) : Bool :=
  if decide (90 < title.length) then false
  else if endsPunct3 title then false
  else
    let spaced_block := (stripPy prev_line).isEmpty || (stripPy next_line).isEmpty
    let looks_upper := decide ((0.55 : ℚ) ≤ upper_ratio title)
    let looks_titlecase :=
      decide ((0.7 : ℚ) ≤ titlecase_ratio title) && decide ((wordsPy title).length ≤ 10)
    if spaced_block || looks_upper || looks_titlecase then
      if !prev_line.isEmpty && !(stripPy prev_line).isEmpty &&
          !prevEndsSentencePunct prev_line then
        if !(looks_upper || looks_titlecase) then false else true
      else true
    else false

/-- `AdvancedClauseExtractor._estimate_coordinates`: like the segmenter
estimator but with `total_chars = end_pos`, a height cap of a third of
the page, and a fixed height of 100 when the page density is degenerate.
The `text` argument is unused by the source body and kept for signature
fidelity. -/
def estimate_coordinates_adv (start_pos end_pos : Nat) (text : Str)
    (estimated_pages : Nat) : BoundingBox :=
  let total_chars := end_pos
  let chars_per_page : ℚ :=
    if 0 < estimated_pages then (total_chars : ℚ) / (estimated_pages : ℚ)
    else (total_chars : ℚ)
  let page_num : Int :=
    if 0 < chars_per_page then
      min ⌊(start_pos : ℚ) / chars_per_page⌋ ((estimated_pages : Int) - 1)
    else 0
  let page_start : ℚ := (page_num : ℚ) * chars_per_page
  let pos_in_page : ℚ := (start_pos : ℚ) - page_start
  let y_ratio : ℚ := if 0 < chars_per_page then pos_in_page / chars_per_page else 0
  let top : ℚ := y_ratio * 792
  let clause_length : ℚ := (end_pos : ℚ) - (start_pos : ℚ)
  let height : ℚ :=
    if 0 < chars_per_page then min (clause_length / chars_per_page * 792) (792 / 3)
    else 100
  { x0 := 50, x1 := 612 - 50, top := top, bottom := min (top + height) 792,
    page_number := page_num, page_height := 792 }

example : upper_ratio "DO OBJETO".data = 1 := by
  have h1 : "DO OBJETO".data.filter pyIsAlpha = "DOOBJETO".data := by decide
  have h2 : ("DOOBJETO".data.filter pyIsUpper).length = 8 := by decide
  unfold upper_ratio
  rw [h1]
  simp only
  rw [h2]
  norm_num

/-!
Predicates used by the theorem statements, and the concrete fixtures used
by the witnesses.
-/

/-- The bounding-box invariant of the specification: the bottom edge is
not above the top edge and the page number lies in the declared range. -/
def boxInvariant (b : BoundingBox) (pages : Nat) : Prop :=
  b.top ≤ b.bottom ∧ 0 ≤ b.page_number ∧ b.page_number ≤ (pages : Int) - 1

/-- Removal of a single trailing newline, the exact defect of repeated
normalisation. -/
def dropOneTrailingNL (cs : Str) : Str :=
  if cs.getLast? = some '\n' then cs.dropLast else cs

/-- White space other than the newline character. -/
def pyWsX (c : Char) : Bool := pyWs c && c != '\n'

/-- Absence of a triple-newline run. -/
def noTripleNL (cs : Str) : Prop := ¬ ∃ a b : Str, cs = a ++ '\n' :: '\n' :: '\n' :: b

/-- Occurrence of `sub` in `hay` at index `i`. -/
def occAt (hay sub : Str) (i : Nat) : Prop := sub <+: hay.drop i

/-- The fragments occur in the text, in order and without overlap (each
step isolates one fragment with arbitrary material on its left). -/
inductive OccSeq : Str → List Str → Prop
  | nil (t : Str) : OccSeq t []
  | cons (a p b : Str) (ps : List Str) (h : OccSeq b ps) : OccSeq (a ++ p ++ b) (p :: ps)

/-- The fragment list is obtained from the text by removing separators:
the text is the fragments interleaved with arbitrary separators. -/
inductive FragSeq : List Str → Str → Prop
  | single (f : Str) : FragSeq [f] f
  | cons (f sep t : Str) (fs : List Str) (h : FragSeq fs t) :
      FragSeq (f :: fs) (f ++ sep ++ t)

/-- Fixture: extraction result with one explicit CLÁUSULA heading. -/
def erW4 : PDFExtractionResult :=
  { document_id := "d".data, metadata := { page_count := 1 }, clauses := [],
    full_text := "CLÁUSULA 1 - DO OBJETO\nTexto.".data }

/-- Fixture: the candidate boundary covering the CLÁUSULA heading of
`erW4`. -/
def mW4 : ClauseMatch :=
  { start_pos := 0, end_pos := 22, text := "CLÁUSULA 1 - DO OBJETO".data,
    title := some "DO OBJETO".data, number := some "1".data, level := 1,
    pattern_type := "clausula".data, confidence := 0.95 }

/-- Fixture: detector returning exactly the `erW4` boundary. -/
def detW4 : Str → List ClauseMatch := fun _ => [mW4]

/-- Fixture: the clause the pipeline produces on `erW4` with `detW4`. -/
def cW4 : ProcessedClause :=
  { clause_id := generate_clause_id "CLÁUSULA 1 - DO OBJETO\nTexto.".data
      (some "1".data) "clausula".data "d".data,
    text := "CLÁUSULA 1 - DO OBJETO\nTexto.".data,
    coordinates := estimate_clause_coordinates 0 29 "CLÁUSULA 1 - DO OBJETO\nTexto.".data 1,
    title := some "CLÁUSULA 1 - DO OBJETO".data,
    level := 1,
    parent_clause_id := none,
    clause_number := some "1".data }

/-- Fixture: two overlapping candidates with proper spans, for the C1
witness. -/
def msW1 : List ClauseMatch :=
  [{ start_pos := 0, end_pos := 7, text := "x".data, title := none,
     number := some "1".data, level := 1, pattern_type := "numbered".data,
     confidence := 0.9 },
   { start_pos := 3, end_pos := 12, text := "y".data, title := none,
     number := none, level := 2, pattern_type := "paragrafo".data,
     confidence := 0.6 }]

/-- Number of leading newline characters. -/
def leadNL (cs : Str) : Nat := (cs.takeWhile (fun c => c == '\n')).length

/-- Whether the string contains a run of three or more consecutive
newline characters. -/
def hasTriple : Str → Bool
  | [] => false
  | c :: rest => ((c == '\n') && decide (2 ≤ leadNL rest)) || hasTriple rest

/-- Local normal-form condition between a character and its successor:
white space other than a newline never ends a line. -/
def okPair (c : Char) : Option Char → Prop
  | none => pyWsX c = false
  | some d => ¬(pyWsX c = true ∧ d = '\n')

/-- Every line of the string is right-stripped: no white-space character
other than a newline is followed by a newline or ends the string. -/
def nfc : Str → Prop
  | [] => True
  | c :: rest => okPair c rest.head? ∧ nfc rest

/-- The string contains no newline character. -/
def noNL (l : Str) : Prop := ∀ c ∈ l, c ≠ '\n'

/-- The last character, when present, is not white space. -/
def lastOK (l : Str) : Prop := ∀ c, l.getLast? = some c → pyWs c = false

/-- Every line-boundary character of the string is the plain newline. -/
def onlyNL (u : Str) : Prop := ∀ c ∈ u, lineBoundary c = true → c = '\n'

/-!
Theorems.  Everything below settles the frozen claims against the model
above; the helper lemmas come first, then one theorem per claim with its
witness or counterexample.
-/

lemma dropWhile_eq_nil_of_all {α : Type} {p : α → Bool} {l : List α}
    (h : ∀ c ∈ l, p c = true) : l.dropWhile p = [] := by
  induction l with
  | nil => rfl
  | cons c cs ih =>
    rw [List.dropWhile_cons]
    simp only [h c (by simp), if_true]
    exact ih fun x hx => h x (by simp [hx])

lemma stripPy_of_all_ws {cs : Str} (h : ∀ c ∈ cs, pyWs c = true) : stripPy cs = [] := by
  unfold stripPy lstripPy rstripPy
  rw [dropWhile_eq_nil_of_all h]
  rfl

lemma overlapB_comm (a b : ClauseMatch) : overlapB a b = overlapB b a := by
  unfold overlapB
  by_cases h1 : a.start_pos < b.end_pos ∧ b.start_pos < a.end_pos
  · rw [decide_eq_true h1, decide_eq_true ⟨h1.2, h1.1⟩]
  · have h2 : ¬(b.start_pos < a.end_pos ∧ a.start_pos < b.end_pos) := by tauto
    rw [decide_eq_false h1, decide_eq_false h2]

lemma mem_insertSortedBy {α : Type} {le : α → α → Bool} {x a : α} {l : List α} :
    a ∈ insertSortedBy le x l ↔ a = x ∨ a ∈ l := by
  induction l with
  | nil => simp [insertSortedBy]
  | cons y ys ih =>
    unfold insertSortedBy
    split
    · simp
    · simp only [List.mem_cons, ih]
      tauto

lemma mem_sortBy {α : Type} {le : α → α → Bool} {a : α} {l : List α} :
    a ∈ sortBy le l ↔ a ∈ l := by
  induction l with
  | nil => simp [sortBy]
  | cons x xs ih =>
    unfold sortBy
    rw [mem_insertSortedBy, ih]
    simp

/-- Claim C9 — for the empty input string, segmentation returns the empty
clause list; the guard `if not full_text.strip()` fires before any other
work, and the Lean model is a total function, so no exception can arise. -/
theorem C9_empty_input_empty_output (detect : Str → List ClauseMatch)
    (docid : Str) (meta : PDFMetadata) (cls : List ProcessedClause) :
    segment_clauses detect
      { document_id := docid, metadata := meta, clauses := cls, full_text := [] } = [] := rfl

/-- Claim C10 — for every non-empty all-white-space input text the guard
that compares the stripped text with the empty string already returns the
empty list, for every boundary detector, so neither the paragraph
fallback nor the single-clause fallback (which would return a non-empty
list) is ever consulted. -/
theorem C10_whitespace_only_bypasses_fallbacks (detect : Str → List ClauseMatch)
    (er : PDFExtractionResult) (hne : er.full_text ≠ [])
    (hws : ∀ c ∈ er.full_text, pyWs c = true) :
    segment_clauses detect er = [] := by
  unfold segment_clauses
  rw [stripPy_of_all_ws hws]
  rfl

/-- Witness for C10 at the one-space text. -/
theorem C10_witness :
    (" ".data ≠ [] ∧ ∀ c ∈ " ".data, pyWs c = true) ∧
      segment_clauses (fun _ => [])
        { document_id := "d".data, metadata := { page_count := 1 }, clauses := [],
          full_text := " ".data } = [] :=
  ⟨⟨by decide, by decide⟩,
   C10_whitespace_only_bypasses_fallbacks (fun _ => [])
     { document_id := "d".data, metadata := { page_count := 1 }, clauses := [],
       full_text := " ".data } (by decide) (by decide)⟩

/-- Claim C3 — the fallback chain: when boundary detection returns no
match, the paragraph fallback is consulted; it returns the empty list
whenever fewer than two valid paragraphs exist, in which case the
single-clause fallback is used; and the single-clause fallback always
returns exactly one clause whose text is the whole input text. -/
theorem C3_fallback_chain (detect : Str → List ClauseMatch) (er : PDFExtractionResult)
    (hne : stripPy er.full_text ≠ []) (hdet : detect er.full_text = []) :
    ((valid_paragraphs er.full_text).length ≤ 1 →
        create_paragraph_based_clauses er = [] ∧
          segment_clauses detect er = create_single_clause er) ∧
      (1 < (create_paragraph_based_clauses er).length →
        segment_clauses detect er = create_paragraph_based_clauses er) ∧
      (create_single_clause er).length = 1 ∧
      ∀ c ∈ create_single_clause er, c.text = er.full_text := by
  have hseg : segment_clauses detect er =
      (if 1 < (create_paragraph_based_clauses er).length then
        create_paragraph_based_clauses er
      else create_single_clause er) := by
    unfold segment_clauses
    rw [hdet]
    simp [List.isEmpty_iff, hne]
  refine ⟨?_, ?_, ?_, ?_⟩
  · intro hvp
    have hpc : create_paragraph_based_clauses er = [] := by
      unfold create_paragraph_based_clauses
      simp [hvp]
    refine ⟨hpc, ?_⟩
    rw [hseg, hpc]
    simp
  · intro hlen
    rw [hseg, if_pos hlen]
  · simp [create_single_clause]
  · intro c hc
    simp only [create_single_clause, List.mem_singleton] at hc
    rw [hc]

/-- Witness for C3: a three-character text has no valid paragraph, so the
pipeline with an empty detection result ends in the single-clause
fallback. -/
theorem C3_witness :
    (stripPy "abc".data ≠ [] ∧ (valid_paragraphs "abc".data).length ≤ 1) ∧
      create_paragraph_based_clauses
          { document_id := "d".data, metadata := { page_count := 1 }, clauses := [],
            full_text := "abc".data } = [] ∧
        segment_clauses (fun _ => [])
            { document_id := "d".data, metadata := { page_count := 1 }, clauses := [],
              full_text := "abc".data } =
          create_single_clause
            { document_id := "d".data, metadata := { page_count := 1 }, clauses := [],
              full_text := "abc".data } :=
  ⟨⟨by decide, by decide⟩,
   (C3_fallback_chain (fun _ => [])
       { document_id := "d".data, metadata := { page_count := 1 }, clauses := [],
         full_text := "abc".data } (by decide) rfl).1 (by decide)⟩

/-- Claim C6 — confidence precedence in the conflict resolver: for any
two overlapping candidates with confidences 0.95 and 0.8 (in either input
order and at any offsets), only the 0.95 candidate survives. -/
theorem C6_confidence_precedence (a b : ClauseMatch)
    (ha : a.confidence = 0.95) (hb : b.confidence = 0.8)
    (hov : overlapB a b = true) :
    remove_overlapping_matches [a, b] = [a] ∧
      remove_overlapping_matches [b, a] = [a] := by
  have hov2 : overlapB b a = true := by rw [← overlapB_comm]; exact hov
  have hlt : ¬(a.confidence < b.confidence) := by rw [ha, hb]; norm_num
  have hgt : b.confidence < a.confidence := by rw [ha, hb]; norm_num
  have hc1 : (decide (a.confidence < b.confidence)) = false := decide_eq_false hlt
  have hc2 : (decide (b.confidence < a.confidence)) = true := decide_eq_true hgt
  constructor
  · show (sortBy matchKeyLE [a, b]).foldl resolveInsert [] = [a]
    cases hk : matchKeyLE a b with
    | true =>
      have hs : sortBy matchKeyLE [a, b] = [a, b] := by
        simp [sortBy, insertSortedBy, hk]
      rw [hs]
      simp [List.foldl, resolveInsert, scanFiltered, hov2, hc1]
    | false =>
      have hs : sortBy matchKeyLE [a, b] = [b, a] := by
        simp [sortBy, insertSortedBy, hk]
      rw [hs]
      simp [List.foldl, resolveInsert, scanFiltered, hov, hc2]
  · show (sortBy matchKeyLE [b, a]).foldl resolveInsert [] = [a]
    cases hk : matchKeyLE b a with
    | true =>
      have hs : sortBy matchKeyLE [b, a] = [b, a] := by
        simp [sortBy, insertSortedBy, hk]
      rw [hs]
      simp [List.foldl, resolveInsert, scanFiltered, hov, hc2]
    | false =>
      have hs : sortBy matchKeyLE [b, a] = [a, b] := by
        simp [sortBy, insertSortedBy, hk]
      rw [hs]
      simp [List.foldl, resolveInsert, scanFiltered, hov2, hc1]

/-- Witness for C6 at concrete overlapping candidates. -/
theorem C6_witness :
    overlapB
        { start_pos := 0, end_pos := 10, text := "x".data, title := none,
          number := some "1".data, level := 1, pattern_type := "clausula".data,
          confidence := 0.95 }
        { start_pos := 5, end_pos := 15, text := "y".data, title := none,
          number := some "2".data, level := 1, pattern_type := "numbered".data,
          confidence := 0.8 } = true ∧
      remove_overlapping_matches
          [{ start_pos := 0, end_pos := 10, text := "x".data, title := none,
             number := some "1".data, level := 1, pattern_type := "clausula".data,
             confidence := 0.95 },
           { start_pos := 5, end_pos := 15, text := "y".data, title := none,
             number := some "2".data, level := 1, pattern_type := "numbered".data,
             confidence := 0.8 }] =
        [{ start_pos := 0, end_pos := 10, text := "x".data, title := none,
           number := some "1".data, level := 1, pattern_type := "clausula".data,
           confidence := 0.95 }] :=
  ⟨by decide,
   (C6_confidence_precedence _ _ rfl rfl (by decide)).1⟩

lemma createClausesGo_clause_id {full_text document_id : Str} {page_count : Nat}
    {ms : List ClauseMatch} {c : ProcessedClause}
    (hc : c ∈ createClausesGo full_text document_id page_count ms) :
    ∃ m ∈ ms, c.clause_id = generate_clause_id c.text m.number m.pattern_type document_id ∧
      c.clause_number = m.number := by
  induction ms with
  | nil => simp [createClausesGo] at hc
  | cons m rest ih =>
    rw [createClausesGo] at hc
    by_cases hemp :
        (stripPy (pySlice full_text (clauseSpan full_text m rest.head?).1
          (clauseSpan full_text m rest.head?).2)).isEmpty
    · rw [if_pos hemp] at hc
      obtain ⟨m2, hm2, hid⟩ := ih hc
      exact ⟨m2, by simp [hm2], hid⟩
    · rw [if_neg hemp] at hc
      rcases List.mem_cons.mp hc with hhead | htail
      · refine ⟨m, by simp, ?_, ?_⟩
        · rw [hhead]
        · rw [hhead]
      · obtain ⟨m2, hm2, hid⟩ := ih htail
        exact ⟨m2, by simp [hm2], hid⟩

/-- Claim C4 — structure of the clause identifier on the structured path:
every clause produced when detection succeeds carries the identifier
`clause_{patternType}_` followed by the first 12 hex digits of the md5 of
`documentId_patternType_number-or-unnumbered_first-200-chars-of-text`,
for the match it was built from.  The model is a pure function of
`(full_text, document_id, page_count)`, so identity of inputs gives
identity of identifiers across runs. -/
theorem C4_clause_id_structure (detect : Str → List ClauseMatch)
    (er : PDFExtractionResult) (c : ProcessedClause)
    (hdet : detect er.full_text ≠ [])
    (hc : c ∈ segment_clauses detect er) :
    ∃ m ∈ detect er.full_text,
      c.clause_id = "clause_".data ++ m.pattern_type ++ "_".data ++
        (md5Hex (er.document_id ++ "_".data ++ m.pattern_type ++ "_".data ++
          m.number.getD "unnumbered".data ++ "_".data ++
          stripPy (c.text.take 200))).take 12 ∧
      c.clause_number = m.number := by
  unfold segment_clauses at hc
  by_cases hstrip : (stripPy er.full_text).isEmpty
  · rw [if_pos hstrip] at hc
    exact absurd hc (List.not_mem_nil c)
  · rw [if_neg hstrip] at hc
    have hdet2 : (detect er.full_text).isEmpty = false := by
      simpa [List.isEmpty_iff] using hdet
    simp only [hdet2, Bool.false_eq_true, if_false] at hc
    have hc2 : c ∈ create_processed_clauses (sortBy startKeyLE (detect er.full_text))
        er.full_text er.document_id er.metadata.page_count :=
      (List.mem_filter.mp hc).1
    obtain ⟨m, hm, hid, hnum⟩ := createClausesGo_clause_id hc2
    exact ⟨m, mem_sortBy.mp hm, hid, hnum⟩

/-- Witness for C4 at the `erW4` fixture. -/
theorem C4_witness :
    detW4 erW4.full_text ≠ [] ∧ cW4 ∈ segment_clauses detW4 erW4 ∧
      ∃ m ∈ detW4 erW4.full_text,
        cW4.clause_id = "clause_".data ++ m.pattern_type ++ "_".data ++
          (md5Hex (erW4.document_id ++ "_".data ++ m.pattern_type ++ "_".data ++
            m.number.getD "unnumbered".data ++ "_".data ++
            stripPy (cW4.text.take 200))).take 12 ∧
        cW4.clause_number = m.number := by
  have heq : segment_clauses detW4 erW4 = [cW4] := rfl
  have hmem : cW4 ∈ segment_clauses detW4 erW4 := by
    rw [heq]
    exact List.mem_singleton.mpr rfl
  exact ⟨by simp [detW4, mW4], hmem,
    C4_clause_id_structure detW4 erW4 cW4 (by simp [detW4, mW4]) hmem⟩

lemma segment_sections_eq (text : Str) (hs : List (Nat × Str × Str)) :
    segment_sections text hs = segmentSectionsGo text hs := by
  cases hs <;> rfl

lemma segmentSectionsGo_map_start (text : Str) (hs : List (Nat × Str × Str)) :
    (segmentSectionsGo text hs).map Secao.start = hs.map (fun h => h.1) := by
  induction hs with
  | nil => rfl
  | cons h rest ih => simp [segmentSectionsGo, ih]

lemma segmentSectionsGo_start_mem {text : Str} {hs : List (Nat × Str × Str)}
    {s : Secao} (h : s ∈ segmentSectionsGo text hs) : ∃ hd ∈ hs, s.start = hd.1 := by
  have h2 : s.start ∈ (segmentSectionsGo text hs).map Secao.start := List.mem_map_of_mem _ h
  rw [segmentSectionsGo_map_start] at h2
  obtain ⟨hd, hhd, heq⟩ := List.mem_map.mp h2
  exact ⟨hd, hhd, heq.symm⟩

lemma segmentSectionsGo_single (text : Str) (h : Nat × Str × Str) :
    segmentSectionsGo text [h] =
      [{ number := h.2.1, title := h.2.2,
         text := stripPy (pySlice text h.1 text.length), start := h.1,
         stop := text.length }] := rfl

lemma segmentSectionsGo_cons2 (text : Str) (h h2 : Nat × Str × Str)
    (rest : List (Nat × Str × Str)) :
    segmentSectionsGo text (h :: h2 :: rest) =
      { number := h.2.1, title := h.2.2,
        text := stripPy (pySlice text h.1 h2.1), start := h.1,
        stop := h2.1 } :: segmentSectionsGo text (h2 :: rest) := rfl

lemma segmentSectionsGo_head_start (text : Str) (h : Nat × Str × Str)
    (rest : List (Nat × Str × Str)) :
    ∀ s ∈ (segmentSectionsGo text (h :: rest)).head?, s.start = h.1 := by
  cases rest with
  | nil =>
    intro s hs
    rw [segmentSectionsGo_single] at hs
    simp only [List.head?_cons, Option.mem_def, Option.some.injEq] at hs
    rw [← hs]
  | cons h2 rest2 =>
    intro s hs
    rw [segmentSectionsGo_cons2] at hs
    simp only [List.head?_cons, Option.mem_def, Option.some.injEq] at hs
    rw [← hs]

lemma segmentSectionsGo_chain (text : Str) (hs : List (Nat × Str × Str)) :
    List.Chain' (fun s t => s.stop = t.start) (segmentSectionsGo text hs) := by
  induction hs with
  | nil => simp [segmentSectionsGo]
  | cons h rest ih =>
    cases rest with
    | nil => rw [segmentSectionsGo_single]; simp
    | cons h2 rest2 =>
      rw [segmentSectionsGo_cons2]
      refine List.Chain'.cons' ih ?_
      intro t ht
      have := segmentSectionsGo_head_start text h2 rest2 t ht
      rw [this]

lemma getLast?_cons_of_ne {α : Type} (a : α) (l : List α) (h : l ≠ []) :
    (a :: l).getLast? = l.getLast? := by
  cases l with
  | nil => exact absurd rfl h
  | cons b bs => exact List.getLast?_cons_cons

lemma segmentSectionsGo_getLast_stop (text : Str) (hs : List (Nat × Str × Str)) :
    ∀ s ∈ (segmentSectionsGo text hs).getLast?, s.stop = text.length := by
  induction hs with
  | nil => simp [segmentSectionsGo]
  | cons h rest ih =>
    cases rest with
    | nil =>
      intro s hm
      rw [segmentSectionsGo_single] at hm
      simp only [List.getLast?_singleton, Option.mem_def, Option.some.injEq] at hm
      rw [← hm]
    | cons h2 rest2 =>
      intro s hm
      rw [segmentSectionsGo_cons2] at hm
      have hne : segmentSectionsGo text (h2 :: rest2) ≠ [] := by
        cases rest2 <;> simp [segmentSectionsGo_single, segmentSectionsGo_cons2]
      rw [getLast?_cons_of_ne _ _ hne] at hm
      exact ih s hm

lemma segmentSectionsGo_cover (hs : List (Nat × Str × Str)) (text : Str) (p : Nat)
    (hsort : hs.Pairwise (fun a b => a.1 ≤ b.1))
    (hhead : ∀ h0 ∈ hs.head?, h0.1 ≤ p) (hp : p < text.length) (hne : hs ≠ []) :
    (segmentSectionsGo text hs).countP
      (fun s => decide (s.start ≤ p ∧ p < s.stop)) = 1 := by
  induction hs with
  | nil => exact absurd rfl hne
  | cons h1 rest ih =>
    have hh1 : h1.1 ≤ p := hhead h1 (by rfl)
    cases rest with
    | nil =>
      rw [segmentSectionsGo_single, List.countP_cons]
      simp only [decide_eq_true_eq, List.countP_nil]
      rw [if_pos ⟨hh1, hp⟩]
    | cons h2 rest2 =>
      rw [segmentSectionsGo_cons2, List.countP_cons]
      simp only [decide_eq_true_eq]
      by_cases hcase : p < h2.1
      · have hzero : (segmentSectionsGo text (h2 :: rest2)).countP
            (fun s => decide (s.start ≤ p ∧ p < s.stop)) = 0 := by
          rw [List.countP_eq_zero]
          intro s hmem
          obtain ⟨hd, hhd, hstart⟩ := segmentSectionsGo_start_mem hmem
          have hge : h2.1 ≤ hd.1 := by
            rcases List.mem_cons.mp hhd with heq | hmem2
            · rw [heq]
            · exact (List.pairwise_cons.mp (List.pairwise_cons.mp hsort).2).1 hd hmem2
          simp only [decide_eq_true_eq, not_and]
          intro hle
          omega
        rw [hzero, if_pos ⟨hh1, hcase⟩]
      · have hrec := ih (List.pairwise_cons.mp hsort).2
          (by
            intro h0 hh0
            simp only [List.head?_cons, Option.mem_def, Option.some.injEq] at hh0
            rw [← hh0]
            omega)
          (by simp)
        rw [hrec, if_neg (fun hand => hcase hand.2)]

/-- Claim C2 — coverage of the section segmenter: for a non-empty,
position-sorted header list whose starts lie within the text, the
sections start exactly at the header starts, each section ends exactly
where the next one starts, the last section ends at the text length, and
every character position from the first header start to the end of the
text falls in exactly one section span. -/
theorem C2_section_segmenter_coverage (text : Str) (headers : List (Nat × Str × Str))
    (hne : headers ≠ [])
    (hsort : headers.Pairwise (fun a b => a.1 ≤ b.1))
    (hbound : ∀ h ∈ headers, h.1 ≤ text.length) :
    (segment_sections text headers).map Secao.start = headers.map (fun h => h.1) ∧
      List.Chain' (fun s t => s.stop = t.start) (segment_sections text headers) ∧
      (∀ s ∈ (segment_sections text headers).getLast?, s.stop = text.length) ∧
      ∀ p : Nat, (∀ h0 ∈ headers.head?, h0.1 ≤ p) → p < text.length →
        (segment_sections text headers).countP
          (fun s => decide (s.start ≤ p ∧ p < s.stop)) = 1 := by
  rw [segment_sections_eq]
  refine ⟨segmentSectionsGo_map_start text headers,
    segmentSectionsGo_chain text headers,
    segmentSectionsGo_getLast_stop text headers, ?_⟩
  intro p hhead hp
  exact segmentSectionsGo_cover headers text p hsort hhead hp hne

/-- Witness for C2 at two headers in a ten-character text. -/
theorem C2_witness :
    (([(0, "1".data, "A".data), (4, "2".data, "B".data)] : List (Nat × Str × Str)) ≠ [] ∧
        ([(0, "1".data, "A".data), (4, "2".data, "B".data)] :
            List (Nat × Str × Str)).Pairwise (fun a b => a.1 ≤ b.1) ∧
        (segment_sections "ab\ncd\nefgh".data
            [(0, "1".data, "A".data), (4, "2".data, "B".data)]).countP
          (fun s => decide (s.start ≤ 5 ∧ 5 < s.stop)) = 1) ∧
      List.Chain' (fun s t => s.stop = t.start)
        (segment_sections "ab\ncd\nefgh".data
          [(0, "1".data, "A".data), (4, "2".data, "B".data)]) := by
  have h := C2_section_segmenter_coverage "ab\ncd\nefgh".data
    [(0, "1".data, "A".data), (4, "2".data, "B".data)]
    (by decide) (by decide) (by decide)
  exact ⟨⟨by decide, by decide, h.2.2.2 5 (by decide) (by decide)⟩, h.2.1⟩

lemma remove_overlapping_eq (ms : List ClauseMatch) :
    remove_overlapping_matches ms = (sortBy matchKeyLE ms).foldl resolveInsert [] := by
  cases ms <;> rfl

lemma matchKeyLE_trans (a b c : ClauseMatch) (hab : matchKeyLE a b = true)
    (hbc : matchKeyLE b c = true) : matchKeyLE a c = true := by
  simp only [matchKeyLE, Bool.or_eq_true, Bool.and_eq_true, decide_eq_true_eq] at *
  rcases hab with h1 | ⟨h1, q1⟩ <;> rcases hbc with h2 | ⟨h2, q2⟩
  · exact Or.inl (h1.trans h2)
  · exact Or.inl (h2 ▸ h1)
  · exact Or.inl (h1 ▸ h2)
  · exact Or.inr ⟨h1.trans h2, q2.trans q1⟩

lemma matchKeyLE_total (a b : ClauseMatch) :
    matchKeyLE a b = true ∨ matchKeyLE b a = true := by
  simp only [matchKeyLE, Bool.or_eq_true, Bool.and_eq_true, decide_eq_true_eq]
  rcases Nat.lt_trichotomy a.start_pos b.start_pos with h | h | h
  · exact Or.inl (Or.inl h)
  · rcases le_total b.confidence a.confidence with hq | hq
    · exact Or.inl (Or.inr ⟨h, hq⟩)
    · exact Or.inr (Or.inr ⟨h.symm, hq⟩)
  · exact Or.inr (Or.inl h)

lemma matchKeyLE_start {a b : ClauseMatch} (h : matchKeyLE a b = true) :
    a.start_pos ≤ b.start_pos := by
  simp only [matchKeyLE, Bool.or_eq_true, Bool.and_eq_true, decide_eq_true_eq] at h
  rcases h with h | ⟨h, _⟩
  · omega
  · omega

lemma pairwise_insertSortedBy {α : Type} {le : α → α → Bool}
    (htrans : ∀ a b c, le a b = true → le b c = true → le a c = true)
    (htot : ∀ a b, le a b = true ∨ le b a = true) (x : α) {l : List α}
    (h : l.Pairwise (fun a b => le a b = true)) :
    (insertSortedBy le x l).Pairwise (fun a b => le a b = true) := by
  induction l with
  | nil => simp [insertSortedBy]
  | cons y ys ih =>
    rw [insertSortedBy]
    by_cases hxy : le x y = true
    · rw [if_pos hxy]
      refine List.pairwise_cons.mpr ⟨?_, h⟩
      intro z hz
      rcases List.mem_cons.mp hz with hz1 | hz2
      · rw [hz1]; exact hxy
      · exact htrans x y z hxy ((List.pairwise_cons.mp h).1 z hz2)
    · rw [if_neg hxy]
      refine List.pairwise_cons.mpr ⟨?_, ih (List.pairwise_cons.mp h).2⟩
      intro z hz
      rcases mem_insertSortedBy.mp hz with hz1 | hz2
      · rw [hz1]
        rcases htot x y with hh | hh
        · exact absurd hh hxy
        · exact hh
      · exact (List.pairwise_cons.mp h).1 z hz2

lemma pairwise_sortBy {α : Type} {le : α → α → Bool}
    (htrans : ∀ a b c, le a b = true → le b c = true → le a c = true)
    (htot : ∀ a b, le a b = true ∨ le b a = true) (l : List α) :
    (sortBy le l).Pairwise (fun a b => le a b = true) := by
  induction l with
  | nil => simp [sortBy]
  | cons x xs ih => exact pairwise_insertSortedBy htrans htot x ih

lemma scanFiltered_spec (m : ClauseMatch) (f : List ClauseMatch)
    (hsorted : f.Pairwise (fun a b => a.start_pos ≤ b.start_pos))
    (hnov : f.Pairwise (fun a b => overlapB a b = false))
    (hle : ∀ e ∈ f, e.start_pos ≤ m.start_pos) :
    (scanFiltered m f).1.Sublist f ∧
      ((scanFiltered m f).2 = false →
        ∀ e ∈ (scanFiltered m f).1, overlapB m e = false) := by
  induction f with
  | nil =>
    constructor
    · simp [scanFiltered]
    · intro _ e he
      simp [scanFiltered] at he
  | cons e rest ih =>
    rw [scanFiltered]
    by_cases hov : overlapB m e = true
    · rw [if_pos hov]
      by_cases hcc : (decide (e.confidence < m.confidence)) = true
      · rw [if_pos hcc]
        refine ⟨List.sublist_cons_self e rest, ?_⟩
        intro _ b hb
        have h1 : e.start_pos ≤ b.start_pos := (List.pairwise_cons.mp hsorted).1 b hb
        have h2 : overlapB e b = false := (List.pairwise_cons.mp hnov).1 b hb
        have h3 : b.start_pos ≤ m.start_pos := hle b (List.mem_cons_of_mem e hb)
        simp only [overlapB, decide_eq_true_eq] at hov
        simp only [overlapB, decide_eq_false_iff_not] at h2
        simp only [overlapB, decide_eq_false_iff_not]
        omega
      · rw [if_neg hcc]
        refine ⟨List.Sublist.refl _, ?_⟩
        intro hfl
        exact absurd hfl (by simp)
    · rw [if_neg hov]
      have hrec := ih (List.pairwise_cons.mp hsorted).2 (List.pairwise_cons.mp hnov).2
        (fun x hx => hle x (List.mem_cons_of_mem e hx))
      refine ⟨List.Sublist.cons₂ e hrec.1, ?_⟩
      intro hfl b hb
      rcases List.mem_cons.mp hb with hb1 | hb2
      · rw [hb1]
        exact Bool.eq_false_iff.mpr hov
      · exact hrec.2 hfl b hb2

lemma resolveInsert_inv (m : ClauseMatch) (f : List ClauseMatch)
    (hsorted : f.Pairwise (fun a b => a.start_pos ≤ b.start_pos))
    (hnov : f.Pairwise (fun a b => overlapB a b = false))
    (hle : ∀ e ∈ f, e.start_pos ≤ m.start_pos) :
    (resolveInsert f m).Pairwise (fun a b => a.start_pos ≤ b.start_pos) ∧
      (resolveInsert f m).Pairwise (fun a b => overlapB a b = false) ∧
      ∀ x ∈ resolveInsert f m, x ∈ f ∨ x = m := by
  obtain ⟨hsub, hclear⟩ := scanFiltered_spec m f hsorted hnov hle
  rw [resolveInsert]
  cases hflag : (scanFiltered m f).2 with
  | true =>
    rw [if_pos rfl]
    exact ⟨List.Pairwise.sublist hsub hsorted, List.Pairwise.sublist hsub hnov,
      fun x hx => Or.inl (hsub.subset hx)⟩
  | false =>
    rw [if_neg (by simp)]
    have hmem : ∀ x ∈ (scanFiltered m f).1, x ∈ f := fun x hx => hsub.subset hx
    refine ⟨?_, ?_, ?_⟩
    · rw [List.pairwise_append]
      exact ⟨List.Pairwise.sublist hsub hsorted, List.pairwise_singleton _ _,
        fun a ha b hb => by
          rw [List.mem_singleton.mp hb]
          exact hle a (hmem a ha)⟩
    · rw [List.pairwise_append]
      refine ⟨List.Pairwise.sublist hsub hnov, List.pairwise_singleton _ _, ?_⟩
      intro a ha b hb
      rw [List.mem_singleton.mp hb, overlapB_comm]
      exact hclear hflag a ha
    · intro x hx
      rcases List.mem_append.mp hx with hx1 | hx2
      · exact Or.inl (hmem x hx1)
      · exact Or.inr (List.mem_singleton.mp hx2)

lemma foldl_resolveInsert_inv (l : List ClauseMatch) (f : List ClauseMatch)
    (hsorted : f.Pairwise (fun a b => a.start_pos ≤ b.start_pos))
    (hnov : f.Pairwise (fun a b => overlapB a b = false))
    (hcross : ∀ e ∈ f, ∀ m ∈ l, e.start_pos ≤ m.start_pos)
    (hsl : l.Pairwise (fun a b => a.start_pos ≤ b.start_pos)) :
    (l.foldl resolveInsert f).Pairwise (fun a b => a.start_pos ≤ b.start_pos) ∧
      (l.foldl resolveInsert f).Pairwise (fun a b => overlapB a b = false) ∧
      ∀ x ∈ l.foldl resolveInsert f, x ∈ f ∨ x ∈ l := by
  induction l generalizing f with
  | nil => exact ⟨hsorted, hnov, fun x hx => Or.inl hx⟩
  | cons m rest ih =>
    rw [List.foldl_cons]
    have hle : ∀ e ∈ f, e.start_pos ≤ m.start_pos :=
      fun e he => hcross e he m (by simp)
    obtain ⟨hs2, hn2, hm2⟩ := resolveInsert_inv m f hsorted hnov hle
    have hcross2 : ∀ e ∈ resolveInsert f m, ∀ m2 ∈ rest, e.start_pos ≤ m2.start_pos := by
      intro e he m2 hm22
      rcases hm2 e he with hef | hem
      · exact hcross e hef m2 (List.mem_cons_of_mem m hm22)
      · rw [hem]
        exact (List.pairwise_cons.mp hsl).1 m2 hm22
    obtain ⟨hs3, hn3, hm3⟩ := ih (resolveInsert f m) hs2 hn2 hcross2
      (List.pairwise_cons.mp hsl).2
    refine ⟨hs3, hn3, ?_⟩
    intro x hx
    rcases hm3 x hx with hx1 | hx2
    · rcases hm2 x hx1 with hxf | hxm
      · exact Or.inl hxf
      · exact Or.inr (by rw [hxm]; simp)
    · exact Or.inr (List.mem_cons_of_mem m hx2)

/-- Claim C1 — conflict-resolver invariant: for every input list of
candidate boundaries, the output of `_remove_overlapping_matches` is
pairwise non-overlapping (no pair satisfies `a.start < b.end` and
`a.end > b.start`) and is in non-decreasing start order; if moreover
every input match has `start < end` (true of every real regex match),
the starts are strictly increasing. -/
theorem C1_conflict_resolver_no_overlap (ms : List ClauseMatch) :
    (remove_overlapping_matches ms).Pairwise (fun a b => overlapB a b = false) ∧
      (remove_overlapping_matches ms).Pairwise
        (fun a b => a.start_pos ≤ b.start_pos) ∧
      ((∀ m ∈ ms, m.start_pos < m.end_pos) →
        (remove_overlapping_matches ms).Pairwise
          (fun a b => a.start_pos < b.start_pos)) := by
  rw [remove_overlapping_eq]
  have hsl : (sortBy matchKeyLE ms).Pairwise
      (fun a b => a.start_pos ≤ b.start_pos) :=
    (pairwise_sortBy matchKeyLE_trans matchKeyLE_total ms).imp
      (fun h => matchKeyLE_start h)
  obtain ⟨hs, hn, hm⟩ := foldl_resolveInsert_inv (sortBy matchKeyLE ms) []
    (List.Pairwise.nil) (List.Pairwise.nil) (by simp) hsl
  refine ⟨hn, hs, ?_⟩
  intro hlt
  have hcomb := hs.and hn
  refine hcomb.imp_of_mem ?_
  intro a b ha hb hab
  have hma : a ∈ ms := by
    rcases hm a ha with h | h
    · simp at h
    · exact mem_sortBy.mp h
  have hmb : b ∈ ms := by
    rcases hm b hb with h | h
    · simp at h
    · exact mem_sortBy.mp h
  have h1 := hlt a hma
  have h2 := hlt b hmb
  obtain ⟨hle2, hnov2⟩ := hab
  simp only [overlapB, decide_eq_false_iff_not] at hnov2
  omega

/-- Witness for C1 at two concrete overlapping candidates with proper
spans. -/
theorem C1_witness :
    (∀ m ∈ msW1, m.start_pos < m.end_pos) ∧
      (remove_overlapping_matches msW1).Pairwise
        (fun a b => a.start_pos < b.start_pos) :=
  ⟨by decide, (C1_conflict_resolver_no_overlap msW1).2.2 (by decide)⟩

lemma stripPy_nil : stripPy ([] : Str) = [] := rfl

/-- Claim C8 (amended) — full characterisation of the header plausibility
filter: the two rejection rules of the claim are exact, and the
acceptance rule holds with one additional proviso the claim omits: when
the candidate qualifies only through blank-line isolation (neither mostly
upper-case nor title-case), it is still rejected if the previous line is
non-blank and does not end in sentence-terminal punctuation
(`[.:;!?]`). -/
theorem C8_header_filter_characterisation (line prev_line next_line title : Str) :
    is_probable_header line prev_line next_line title = true ↔
      (title.length ≤ 90 ∧ endsPunct3 title = false ∧
        ((stripPy prev_line).isEmpty = true ∨ (stripPy next_line).isEmpty = true ∨
          (0.55 : ℚ) ≤ upper_ratio title ∨
          ((0.7 : ℚ) ≤ titlecase_ratio title ∧ (wordsPy title).length ≤ 10)) ∧
        ((0.55 : ℚ) ≤ upper_ratio title ∨
          ((0.7 : ℚ) ≤ titlecase_ratio title ∧ (wordsPy title).length ≤ 10) ∨
          (stripPy prev_line).isEmpty = true ∨
          prevEndsSentencePunct prev_line = true)) := by
  have hEC : prev_line.isEmpty = true → (stripPy prev_line).isEmpty = true := by
    intro h
    rw [List.isEmpty_iff] at h ⊢
    rw [h]
    rfl
  unfold is_probable_header
  by_cases hA : 90 < title.length
  · rw [if_pos (decide_eq_true hA)]
    constructor
    · intro h; exact absurd h (by simp)
    · intro h; omega
  · rw [if_neg (by simpa using hA)]
    by_cases hB : endsPunct3 title = true
    · rw [if_pos hB]
      constructor
      · intro h; exact absurd h (by simp)
      · intro h
        rw [h.2.1] at hB
        exact absurd hB (by simp)
    · have hB2 : endsPunct3 title = false := by simpa using hB
      rw [if_neg hB]
      simp only
      by_cases hU : (0.55 : ℚ) ≤ upper_ratio title <;>
        by_cases hT : (0.7 : ℚ) ≤ titlecase_ratio title <;>
        by_cases hW : (wordsPy title).length ≤ 10 <;>
        cases hC : (stripPy prev_line).isEmpty <;>
        cases hD : (stripPy next_line).isEmpty <;>
        cases hP : prevEndsSentencePunct prev_line <;>
        cases hE : prev_line.isEmpty <;>
        simp_all

/-- Counterexample for C8 as frozen: the candidate line is isolated by a
blank next line, the title is short and does not end in punctuation, so
the claim says the filter accepts; but the previous line is non-blank
and does not end a sentence and the title is neither upper-case nor
title-case, so the filter rejects. -/
theorem C8_counterexample :
    ("aa bb".data.length ≤ 90 ∧ endsPunct3 "aa bb".data = false ∧
        (stripPy ([] : Str)).isEmpty = true) ∧
      is_probable_header "x".data "abc".data [] "aa bb".data = false := by
  have h1 : "aa bb".data.filter pyIsAlpha = "aabb".data := by decide
  have h2 : ("aabb".data.filter pyIsUpper).length = 0 := by decide
  have hU : ¬((0.55 : ℚ) ≤ upper_ratio "aa bb".data) := by
    unfold upper_ratio
    rw [h1]
    simp only
    rw [h2]
    norm_num
  have h3 : wordsPy (stripPy "aa bb".data) = ["aa".data, "bb".data] := by decide
  have h4 : ((["aa".data, "bb".data] : List Str).filter goodTitleWord).length = 0 := by
    decide
  have hT : ¬((0.7 : ℚ) ≤ titlecase_ratio "aa bb".data) := by
    unfold titlecase_ratio
    rw [h3]
    simp only
    rw [h4]
    norm_num
  have hUd : decide ((0.55 : ℚ) ≤ upper_ratio "aa bb".data) = false := decide_eq_false hU
  have hTd : decide ((0.7 : ℚ) ≤ titlecase_ratio "aa bb".data) = false := decide_eq_false hT
  refine ⟨⟨by decide, by decide, by decide⟩, ?_⟩
  unfold is_probable_header
  rw [if_neg (by decide), if_neg (by decide)]
  simp only [hUd, hTd]
  decide

lemma estimate_clause_coordinates_inv (s e : Nat) (ft : Str) (pages : Nat)
    (hp : 1 ≤ pages) (hse : s ≤ e) (hsl : s ≤ ft.length) :
    boxInvariant (estimate_clause_coordinates s e ft pages) pages := by
  unfold estimate_clause_coordinates boxInvariant
  by_cases h0 : ft.length = 0 ∨ pages = 0
  · rw [if_pos h0]
    refine ⟨by norm_num, by norm_num, ?_⟩
    show (0 : Int) ≤ (pages : Int) - 1
    have : (1 : Int) ≤ (pages : Int) := by exact_mod_cast hp
    omega
  · rw [if_neg h0]
    push_neg at h0
    simp only
    have htc : (0 : ℚ) < (ft.length : ℚ) := by
      have : 0 < ft.length := Nat.pos_of_ne_zero h0.1
      exact_mod_cast this
    have hpq : (0 : ℚ) < (pages : ℚ) := by
      have : 0 < pages := hp
      exact_mod_cast this
    have hcpp : (0 : ℚ) < (ft.length : ℚ) / (pages : ℚ) := div_pos htc hpq
    have hF0 : (0 : Int) ≤ ⌊(s : ℚ) / ((ft.length : ℚ) / (pages : ℚ))⌋ :=
      Int.floor_nonneg.mpr (by positivity)
    have hpge : (1 : Int) ≤ (pages : Int) := by exact_mod_cast hp
    have hpage0 : (0 : Int) ≤
        min ⌊(s : ℚ) / ((ft.length : ℚ) / (pages : ℚ))⌋ ((pages : Int) - 1) :=
      le_min hF0 (by omega)
    have hratio : ((s : ℚ) -
        ((min ⌊(s : ℚ) / ((ft.length : ℚ) / (pages : ℚ))⌋ ((pages : Int) - 1) : Int) : ℚ) *
          ((ft.length : ℚ) / (pages : ℚ))) ≤ (ft.length : ℚ) / (pages : ℚ) := by
      by_cases hF : ⌊(s : ℚ) / ((ft.length : ℚ) / (pages : ℚ))⌋ ≤ (pages : Int) - 1
      · rw [min_eq_left hF]
        have h1 : (s : ℚ) / ((ft.length : ℚ) / (pages : ℚ)) <
            ⌊(s : ℚ) / ((ft.length : ℚ) / (pages : ℚ))⌋ + 1 := Int.lt_floor_add_one _
        have h2 : (s : ℚ) <
            (⌊(s : ℚ) / ((ft.length : ℚ) / (pages : ℚ))⌋ + 1) *
              ((ft.length : ℚ) / (pages : ℚ)) := by
          rw [← div_lt_iff hcpp] at *
          exact h1
        nlinarith [h2]
      · push_neg at hF
        rw [min_eq_right (le_of_lt hF)]
        have hFp : (pages : Int) ≤ ⌊(s : ℚ) / ((ft.length : ℚ) / (pages : ℚ))⌋ := by omega
        have h1a : ((pages : Int) : ℚ) ≤
            ((⌊(s : ℚ) / ((ft.length : ℚ) / (pages : ℚ))⌋ : Int) : ℚ) :=
          Int.cast_le.mpr hFp
        have h1 : ((pages : Int) : ℚ) ≤ (s : ℚ) / ((ft.length : ℚ) / (pages : ℚ)) :=
          le_trans h1a (Int.floor_le _)
        have h2 : (pages : ℚ) * ((ft.length : ℚ) / (pages : ℚ)) ≤ (s : ℚ) := by
          rw [← le_div_iff hcpp] at *
          push_cast at h1
          exact h1
        have h3 : (pages : ℚ) * ((ft.length : ℚ) / (pages : ℚ)) = (ft.length : ℚ) := by
          field_simp
        have h4 : (s : ℚ) ≤ (ft.length : ℚ) := by exact_mod_cast hsl
        have h5 : (s : ℚ) = (ft.length : ℚ) := le_antisymm h4 (h3 ▸ h2)
        push_cast
        rw [h5]
        have h6 : ((pages : ℚ) - 1) * ((ft.length : ℚ) / (pages : ℚ)) =
            (ft.length : ℚ) - (ft.length : ℚ) / (pages : ℚ) := by
          field_simp
          ring
        nlinarith [h6]
    have hheight : (0 : ℚ) ≤
        min (((e : ℚ) - (s : ℚ)) / ((ft.length : ℚ) / (pages : ℚ)) * 792) (792 / 4) := by
      have hlen : (0 : ℚ) ≤ (e : ℚ) - (s : ℚ) := by
        have : (s : ℚ) ≤ (e : ℚ) := by exact_mod_cast hse
        linarith
      have : (0 : ℚ) ≤ ((e : ℚ) - (s : ℚ)) / ((ft.length : ℚ) / (pages : ℚ)) * 792 := by
        positivity
      exact le_min this (by norm_num)
    rw [if_pos hcpp]
    refine ⟨?_, by exact_mod_cast hpage0, min_le_right _ _⟩
    have htople : ((s : ℚ) -
        ((min ⌊(s : ℚ) / ((ft.length : ℚ) / (pages : ℚ))⌋ ((pages : Int) - 1) : Int) : ℚ) *
          ((ft.length : ℚ) / (pages : ℚ))) / ((ft.length : ℚ) / (pages : ℚ)) * 792 ≤ 792 := by
      have h1 : ((s : ℚ) -
          ((min ⌊(s : ℚ) / ((ft.length : ℚ) / (pages : ℚ))⌋ ((pages : Int) - 1) : Int) : ℚ) *
            ((ft.length : ℚ) / (pages : ℚ))) / ((ft.length : ℚ) / (pages : ℚ)) ≤ 1 := by
        rw [div_le_one hcpp]
        exact hratio
      nlinarith [h1]
    exact le_min (by nlinarith [hheight]) htople

lemma estimate_coordinates_adv_inv (s e : Nat) (text : Str) (pages : Nat)
    (hp : 1 ≤ pages) (hse : s ≤ e) :
    boxInvariant (estimate_coordinates_adv s e text pages) pages := by
  unfold estimate_coordinates_adv boxInvariant
  simp only
  have hpq : (0 : ℚ) < (pages : ℚ) := by
    have : 0 < pages := hp
    exact_mod_cast this
  have hpge : (1 : Int) ≤ (pages : Int) := by exact_mod_cast hp
  rw [if_pos (show 0 < pages from hp)]
  by_cases he : e = 0
  · subst he
    have hc0 : ¬((0 : ℚ) < ((0 : Nat) : ℚ) / (pages : ℚ)) := by
      push_cast
      simp
    simp only [if_neg hc0]
    refine ⟨?_, by norm_num, by show (0 : Int) ≤ (pages : Int) - 1; omega⟩
    norm_num
  · have heq : (0 : ℚ) < (e : ℚ) := by
      have : 0 < e := Nat.pos_of_ne_zero he
      exact_mod_cast this
    have hcpp : (0 : ℚ) < (e : ℚ) / (pages : ℚ) := div_pos heq hpq
    simp only [if_pos hcpp]
    have hF0 : (0 : Int) ≤ ⌊(s : ℚ) / ((e : ℚ) / (pages : ℚ))⌋ :=
      Int.floor_nonneg.mpr (by positivity)
    have hpage0 : (0 : Int) ≤
        min ⌊(s : ℚ) / ((e : ℚ) / (pages : ℚ))⌋ ((pages : Int) - 1) :=
      le_min hF0 (by omega)
    have hratio : ((s : ℚ) -
        ((min ⌊(s : ℚ) / ((e : ℚ) / (pages : ℚ))⌋ ((pages : Int) - 1) : Int) : ℚ) *
          ((e : ℚ) / (pages : ℚ))) ≤ (e : ℚ) / (pages : ℚ) := by
      by_cases hF : ⌊(s : ℚ) / ((e : ℚ) / (pages : ℚ))⌋ ≤ (pages : Int) - 1
      · rw [min_eq_left hF]
        have h1 : (s : ℚ) / ((e : ℚ) / (pages : ℚ)) <
            ⌊(s : ℚ) / ((e : ℚ) / (pages : ℚ))⌋ + 1 := Int.lt_floor_add_one _
        have h2 : (s : ℚ) <
            (⌊(s : ℚ) / ((e : ℚ) / (pages : ℚ))⌋ + 1) * ((e : ℚ) / (pages : ℚ)) := by
          rw [← div_lt_iff hcpp] at *
          exact h1
        nlinarith [h2]
      · push_neg at hF
        rw [min_eq_right (le_of_lt hF)]
        have hFp : (pages : Int) ≤ ⌊(s : ℚ) / ((e : ℚ) / (pages : ℚ))⌋ := by omega
        have h1a : ((pages : Int) : ℚ) ≤
            ((⌊(s : ℚ) / ((e : ℚ) / (pages : ℚ))⌋ : Int) : ℚ) := Int.cast_le.mpr hFp
        have h1 : ((pages : Int) : ℚ) ≤ (s : ℚ) / ((e : ℚ) / (pages : ℚ)) :=
          le_trans h1a (Int.floor_le _)
        have h2 : (pages : ℚ) * ((e : ℚ) / (pages : ℚ)) ≤ (s : ℚ) := by
          rw [← le_div_iff hcpp] at *
          push_cast at h1
          exact h1
        have h3 : (pages : ℚ) * ((e : ℚ) / (pages : ℚ)) = (e : ℚ) := by field_simp
        have h4 : (s : ℚ) ≤ (e : ℚ) := by exact_mod_cast hse
        have h5 : (s : ℚ) = (e : ℚ) := le_antisymm h4 (h3 ▸ h2)
        push_cast
        rw [h5]
        have h6 : ((pages : ℚ) - 1) * ((e : ℚ) / (pages : ℚ)) =
            (e : ℚ) - (e : ℚ) / (pages : ℚ) := by
          field_simp
          ring
        nlinarith [h6]
    have hheight : (0 : ℚ) ≤
        min (((e : ℚ) - (s : ℚ)) / ((e : ℚ) / (pages : ℚ)) * 792) (792 / 3) := by
      have hlen : (0 : ℚ) ≤ (e : ℚ) - (s : ℚ) := by
        have : (s : ℚ) ≤ (e : ℚ) := by exact_mod_cast hse
        linarith
      have : (0 : ℚ) ≤ ((e : ℚ) - (s : ℚ)) / ((e : ℚ) / (pages : ℚ)) * 792 := by
        positivity
      exact le_min this (by norm_num)
    refine ⟨?_, by exact_mod_cast hpage0, min_le_right _ _⟩
    have h1 : ((s : ℚ) -
        ((min ⌊(s : ℚ) / ((e : ℚ) / (pages : ℚ))⌋ ((pages : Int) - 1) : Int) : ℚ) *
          ((e : ℚ) / (pages : ℚ))) / ((e : ℚ) / (pages : ℚ)) ≤ 1 := by
      rw [div_le_one hcpp]
      exact hratio
    have htople : ((s : ℚ) -
        ((min ⌊(s : ℚ) / ((e : ℚ) / (pages : ℚ))⌋ ((pages : Int) - 1) : Int) : ℚ) *
          ((e : ℚ) / (pages : ℚ))) / ((e : ℚ) / (pages : ℚ)) * 792 ≤ 792 := by
      nlinarith [h1]
    exact le_min (by nlinarith [hheight]) htople

lemma pySlice_ne_nil {ft : Str} {s e : Nat} (h : pySlice ft s e ≠ []) :
    s < ft.length ∧ s < e := by
  unfold pySlice at h
  constructor
  · by_contra hge
    push_neg at hge
    have : ft.drop s = [] := List.drop_eq_nil_of_le hge
    rw [this] at h
    simp at h
  · by_contra hge
    push_neg at hge
    have : e - s = 0 := by omega
    rw [this] at h
    simp at h

lemma stripPy_ne_nil {x : Str} (h : stripPy x ≠ []) : x ≠ [] := by
  intro hx
  rw [hx] at h
  exact h rfl

lemma pyFindRec_some {hay nd : Str} :
    ∀ (fuel i f : Nat), pyFindRec hay nd i fuel = some f → i ≤ f ∧ occAt hay nd f := by
  intro fuel
  induction fuel with
  | zero => intro i f h; simp [pyFindRec] at h
  | succ fl ih =>
    intro i f h
    rw [pyFindRec] at h
    by_cases hpre : nd.isPrefixOf (hay.drop i) = true
    · rw [if_pos hpre] at h
      cases h
      exact ⟨le_refl _, List.isPrefixOf_iff_prefix.mp hpre⟩
    · rw [if_neg hpre] at h
      obtain ⟨h1, h2⟩ := ih (i + 1) f h
      exact ⟨by omega, h2⟩

lemma pyFindRec_complete {hay nd : Str} :
    ∀ (fuel i q : Nat), i ≤ q → q < i + fuel → occAt hay nd q →
      ∃ f, pyFindRec hay nd i fuel = some f ∧ f ≤ q := by
  intro fuel
  induction fuel with
  | zero => intro i q h1 h2; omega
  | succ fl ih =>
    intro i q h1 h2 hocc
    rw [pyFindRec]
    by_cases hpre : nd.isPrefixOf (hay.drop i) = true
    · exact ⟨i, by rw [if_pos hpre], h1⟩
    · rw [if_neg hpre]
      have hne : i ≠ q := by
        intro heq
        rw [heq] at hpre
        exact hpre (List.isPrefixOf_iff_prefix.mpr hocc)
      exact ih (i + 1) q (by omega) (by omega) hocc

lemma occAt_bound {hay nd : Str} {q : Nat} (hnd : nd ≠ []) (h : occAt hay nd q) :
    q + nd.length ≤ hay.length := by
  unfold occAt at h
  have h1 : nd.length ≤ (hay.drop q).length := h.length_le
  rw [List.length_drop] at h1
  have h2 : q < hay.length := by
    by_contra hge
    push_neg at hge
    have : hay.drop q = [] := List.drop_eq_nil_of_le hge
    rw [this] at h
    have := h.length_le
    simp at this
    exact hnd (List.length_eq_zero.mp (by omega))
  omega

lemma pyFind_spec {hay nd : Str} {cp q : Nat} (hnd : nd ≠ []) (hle : cp ≤ q)
    (hocc : occAt hay nd q) :
    ∃ f, pyFind hay nd cp = some f ∧ cp ≤ f ∧ f ≤ q ∧ occAt hay nd f := by
  have hq : q + nd.length ≤ hay.length := occAt_bound hnd hocc
  have hfuel : q < cp + (hay.length + 1 - cp) := by
    have : 0 < nd.length := List.length_pos.mpr hnd
    omega
  obtain ⟨f, hf, hfq⟩ := pyFindRec_complete (hay.length + 1 - cp) cp q hle hfuel hocc
  obtain ⟨hcf, hoccf⟩ := pyFindRec_some _ cp f hf
  exact ⟨f, hf, hcf, hfq, hoccf⟩

lemma OccSeq.prepend {t : Str} {ps : List Str} (x : Str) (h : OccSeq t ps) :
    OccSeq (x ++ t) ps := by
  cases h with
  | nil => exact OccSeq.nil _
  | cons a p b ps h2 =>
    rw [← List.append_assoc, ← List.append_assoc]
    exact OccSeq.cons (x ++ a) p b ps h2

lemma OccSeq.append_right {t : Str} {ps : List Str} (x : Str) (h : OccSeq t ps) :
    OccSeq (t ++ x) ps := by
  induction h with
  | nil => exact OccSeq.nil _
  | cons a p b ps h2 ih =>
    rw [List.append_assoc (a ++ p) b x]
    exact OccSeq.cons a p (b ++ x) ps ih

lemma OccSeq.drop_of_le {full : Str} {ps : List Str} {i j : Nat} (hij : i ≤ j)
    (h : OccSeq (full.drop j) ps) : OccSeq (full.drop i) ps := by
  have hsplit : full.drop i = (full.drop i).take (j - i) ++ full.drop j := by
    have h1 : (full.drop i).drop (j - i) = full.drop j := by
      rw [List.drop_drop]
      congr 1
      omega
    calc full.drop i = (full.drop i).take (j - i) ++ (full.drop i).drop (j - i) :=
          (List.take_append_drop _ _).symm
      _ = (full.drop i).take (j - i) ++ full.drop j := by rw [h1]
  rw [hsplit]
  exact h.prepend _

lemma OccSeq.filter {t : Str} {ps : List Str} (pred : Str → Bool) (h : OccSeq t ps) :
    OccSeq t (ps.filter pred) := by
  induction h with
  | nil => exact OccSeq.nil _
  | cons a p b ps h2 ih =>
    rw [List.filter_cons]
    by_cases hp : pred p = true
    · rw [if_pos hp]
      exact OccSeq.cons a p b _ ih
    · rw [if_neg hp]
      rw [List.append_assoc]
      exact ih.prepend _ |>.prepend a |>.prepend [] |>.prepend [] |>.prepend []

lemma strip_decomp (cs : Str) : ∃ l r : Str, cs = l ++ stripPy cs ++ r := by
  refine ⟨cs.takeWhile pyWs, ((lstripPy cs).reverse.takeWhile pyWs).reverse, ?_⟩
  have h1 : cs = cs.takeWhile pyWs ++ lstripPy cs :=
    (List.takeWhile_append_dropWhile pyWs cs).symm
  have h2 : lstripPy cs = stripPy cs ++ ((lstripPy cs).reverse.takeWhile pyWs).reverse := by
    have h3 : (lstripPy cs).reverse =
        (lstripPy cs).reverse.takeWhile pyWs ++ (lstripPy cs).reverse.dropWhile pyWs :=
      (List.takeWhile_append_dropWhile pyWs _).symm
    have h4 : lstripPy cs =
        ((lstripPy cs).reverse.dropWhile pyWs).reverse ++
          ((lstripPy cs).reverse.takeWhile pyWs).reverse := by
      have := congrArg List.reverse h3
      rw [List.reverse_reverse, List.reverse_append] at this
      exact this
    exact h4
  rw [List.append_assoc, ← h2, ← h1]

lemma OccSeq.map_strip {t : Str} {ps : List Str} (h : OccSeq t ps) :
    OccSeq t (ps.map stripPy) := by
  induction h with
  | nil => exact OccSeq.nil _
  | cons a p b ps h2 ih =>
    obtain ⟨l, r, hp⟩ := strip_decomp p
    rw [List.map_cons]
    have : a ++ p ++ b = (a ++ l) ++ stripPy p ++ (r ++ b) := by
      conv_lhs => rw [hp]
      simp [List.append_assoc]
    rw [this]
    exact OccSeq.cons (a ++ l) (stripPy p) (r ++ b) _ (ih.prepend r)

lemma wsRunSep_pos {cs : Str} (h : 1 ≤ countNL (cs.takeWhile pyWs)) :
    1 ≤ wsRunSep cs := by
  unfold wsRunSep
  simp only
  have hmem : '\n' ∈ cs.takeWhile pyWs := by
    unfold countNL at h
    by_contra hnm
    have hemp : (cs.takeWhile pyWs).filter (fun c => c == '\n') = [] := by
      rw [List.filter_eq_nil_iff]
      intro a ha
      simp only [beq_iff_eq]
      intro heq
      rw [heq] at ha
      exact hnm ha
    rw [hemp] at h
    simp at h
  have hmem2 : '\n' ∈ (cs.takeWhile pyWs).reverse := List.mem_reverse.mpr hmem
  have hlt : ((cs.takeWhile pyWs).reverse.takeWhile (fun c => c != '\n')).length <
      (cs.takeWhile pyWs).reverse.length := by
    by_contra hge
    push_neg at hge
    have heq : (cs.takeWhile pyWs).reverse.takeWhile (fun c => c != '\n') =
        (cs.takeWhile pyWs).reverse :=
      List.Sublist.eq_of_length_le (List.takeWhile_sublist _) hge
    have hx := List.mem_takeWhile_imp (heq ▸ hmem2)
    simp at hx
  rw [List.length_reverse] at hlt
  omega

lemma splitBlankGo_nil (fuel : Nat) (acc : Str) :
    splitBlankGo fuel acc [] = [acc.reverse] := by
  cases fuel <;> rfl

lemma splitBlankGo_zero (acc cs : Str) (h : cs ≠ []) :
    splitBlankGo 0 acc cs = [acc.reverse ++ cs] := by
  cases cs with
  | nil => exact absurd rfl h
  | cons c rest => rfl

lemma splitBlankGo_succ_cons (fuel : Nat) (acc : Str) (c : Char) (rest : Str) :
    splitBlankGo (fuel + 1) acc (c :: rest) =
      if c = '\n' ∧ 2 ≤ countNL ((c :: rest).takeWhile pyWs) then
        acc.reverse :: splitBlankGo fuel [] (rest.drop (wsRunSep (c :: rest) - 1))
      else splitBlankGo fuel (c :: acc) rest := rfl

lemma splitBlankGo_fragSeq : ∀ (fuel : Nat) (acc cs : Str),
    FragSeq (splitBlankGo fuel acc cs) (acc.reverse ++ cs) := by
  intro fuel
  induction fuel with
  | zero =>
    intro acc cs
    cases cs with
    | nil =>
      rw [splitBlankGo_nil, List.append_nil]
      exact FragSeq.single _
    | cons c rest =>
      rw [splitBlankGo_zero _ _ (by simp)]
      exact FragSeq.single _
  | succ fl ih =>
    intro acc cs
    cases cs with
    | nil =>
      rw [splitBlankGo_nil, List.append_nil]
      exact FragSeq.single _
    | cons c rest =>
      rw [splitBlankGo_succ_cons]
      by_cases hcond : c = '\n' ∧ 2 ≤ countNL ((c :: rest).takeWhile pyWs)
      · rw [if_pos hcond]
        have hsep : 1 ≤ wsRunSep (c :: rest) :=
          wsRunSep_pos (le_trans (by norm_num) hcond.2)
        have hsplit : (c :: rest) =
            (c :: rest).take (wsRunSep (c :: rest)) ++
              rest.drop (wsRunSep (c :: rest) - 1) := by
          have h1 : (c :: rest).drop (wsRunSep (c :: rest)) =
              rest.drop (wsRunSep (c :: rest) - 1) := by
            cases hk : wsRunSep (c :: rest) with
            | zero => omega
            | succ k =>
              rw [List.drop_succ_cons]
              norm_num
          calc c :: rest
              = (c :: rest).take (wsRunSep (c :: rest)) ++
                  (c :: rest).drop (wsRunSep (c :: rest)) :=
                (List.take_append_drop _ _).symm
            _ = _ := by rw [h1]
        have hrec := ih [] (rest.drop (wsRunSep (c :: rest) - 1))
        rw [List.reverse_nil, List.nil_append] at hrec
        have htarget : acc.reverse ++ (c :: rest) =
            acc.reverse ++ (c :: rest).take (wsRunSep (c :: rest)) ++
              rest.drop (wsRunSep (c :: rest) - 1) := by
          conv_lhs => rw [hsplit]
          rw [List.append_assoc]
        rw [htarget]
        exact FragSeq.cons _ _ _ _ hrec
      · rw [if_neg hcond]
        have hrec := ih (c :: acc) rest
        have heq : (c :: acc).reverse ++ rest = acc.reverse ++ (c :: rest) := by
          rw [List.reverse_cons, List.append_assoc]
          rfl
        rw [heq] at hrec
        exact hrec

lemma FragSeq.toOccSeq {fs : List Str} {t : Str} (h : FragSeq fs t) : OccSeq t fs := by
  induction h with
  | single f =>
    have h2 := OccSeq.cons [] f [] [] (OccSeq.nil [])
    simpa using h2
  | cons f sep t fs h2 ih =>
    have h3 := OccSeq.cons [] f (sep ++ t) fs (ih.prepend sep)
    simpa [List.append_assoc] using h3

lemma occSeq_valid_paragraphs (full : Str) : OccSeq full (valid_paragraphs full) := by
  have h1 : FragSeq (splitBlank (stripPy full)) (stripPy full) := by
    have h0 := splitBlankGo_fragSeq (stripPy full).length [] (stripPy full)
    rw [List.reverse_nil, List.nil_append] at h0
    exact h0
  have h3 := (h1.toOccSeq.map_strip).filter validParagraph
  obtain ⟨l, r, hdecomp⟩ := strip_decomp full
  have h5 := (h3.append_right r).prepend l
  have h6 : l ++ (stripPy full ++ r) = full := by
    rw [← List.append_assoc]
    exact hdecomp.symm
  rw [h6] at h5
  exact h5

lemma createClausesGo_boxes {ft d : Str} {p : Nat} (hp : 1 ≤ p) :
    ∀ (ms : List ClauseMatch) (c : ProcessedClause),
      c ∈ createClausesGo ft d p ms → boxInvariant c.coordinates p := by
  intro ms
  induction ms with
  | nil => intro c hc; simp [createClausesGo] at hc
  | cons m rest ih =>
    intro c hc
    rw [createClausesGo] at hc
    by_cases hemp : (stripPy (pySlice ft (clauseSpan ft m rest.head?).1
        (clauseSpan ft m rest.head?).2)).isEmpty
    · rw [if_pos hemp] at hc
      exact ih c hc
    · rw [if_neg hemp] at hc
      rcases List.mem_cons.mp hc with hhead | htail
      · have hsne : stripPy (pySlice ft (clauseSpan ft m rest.head?).1
            (clauseSpan ft m rest.head?).2) ≠ [] := by
          simpa [List.isEmpty_iff] using hemp
        obtain ⟨hlt, hse⟩ := pySlice_ne_nil (stripPy_ne_nil hsne)
        rw [hhead]
        exact estimate_clause_coordinates_inv _ _ _ _ hp (le_of_lt hse) (le_of_lt hlt)
      · exact ih c htail

lemma paraGo_boxes {full d : Str} {pages : Nat} (hp : 1 ≤ pages) :
    ∀ (paras : List Str) (i cp : Nat), OccSeq (full.drop cp) paras →
      cp ≤ full.length → (∀ q ∈ paras, q ≠ []) →
      ∀ c ∈ paraGo full d pages i cp paras, boxInvariant c.coordinates pages := by
  intro paras
  induction paras with
  | nil =>
    intro i cp _ _ _ c hc
    simp [paraGo] at hc
  | cons p ps ih =>
    intro i cp hocc hcp hne c hc
    obtain ⟨a, b, heq, hb⟩ : ∃ a b, full.drop cp = a ++ p ++ b ∧ OccSeq b ps := by
      generalize ht : full.drop cp = t at hocc
      cases hocc with
      | cons a p0 b ps0 h0 => exact ⟨a, b, rfl, h0⟩
    have hdropq : full.drop (cp + a.length) = p ++ b := by
      have h1 : full.drop (cp + a.length) = (full.drop cp).drop a.length := by
        rw [List.drop_drop]
      rw [h1, heq, List.append_assoc, List.drop_left]
    have hoccq : occAt full p (cp + a.length) := by
      unfold occAt
      rw [hdropq]
      exact List.prefix_append p b
    have hpne : p ≠ [] := hne p (by simp)
    obtain ⟨f, hfind, hcf, hfq, hoccf⟩ :=
      pyFind_spec hpne (by omega : cp ≤ cp + a.length) hoccq
    have hbound := occAt_bound hpne hoccf
    rw [paraGo] at hc
    simp only [hfind] at hc
    rcases List.mem_cons.mp hc with hhead | htail
    · rw [hhead]
      exact estimate_clause_coordinates_inv f (f + p.length) full pages hp
        (by omega) (by omega)
    · have hb2 : full.drop (cp + a.length + p.length) = b := by
        have h1 : full.drop (cp + a.length + p.length) =
            (full.drop cp).drop (a.length + p.length) := by
          rw [List.drop_drop]
          congr 1
          omega
        rw [h1, heq]
        have h2 : (a ++ p).length = a.length + p.length := List.length_append a p
        rw [← h2, List.drop_left]
      have hb3 : OccSeq (full.drop (f + p.length)) ps := by
        have hb4 : OccSeq (full.drop (cp + a.length + p.length)) ps := by
          rw [hb2]
          exact hb
        exact OccSeq.drop_of_le (by omega) hb4
      exact ih (i + 1) (f + p.length) hb3 (by omega)
        (fun q hq => hne q (by simp [hq])) c htail

lemma valid_paragraph_ne_nil {q : Str} (h : validParagraph q = true) : q ≠ [] := by
  unfold validParagraph at h
  rw [Bool.and_eq_true, Bool.and_eq_true] at h
  have h50 : 50 < q.length := of_decide_eq_true h.1.1
  intro hq
  rw [hq] at h50
  simp at h50

/-- Claim C5 — bounding-box invariant: with at least one declared page
and well-formed boxes on any preliminary clauses of the extraction result
(which the single-clause fallback passes through verbatim), every clause
returned by the pipeline has `bottom ≥ top` and a page number in
`[0, totalPages - 1]`; and the coordinate estimator of the advanced
extractor satisfies the same invariant for every span with
`start ≤ end`. -/
theorem C5_bounding_box_invariant (detect : Str → List ClauseMatch)
    (er : PDFExtractionResult) (hp : 1 ≤ er.metadata.page_count)
    (hcl : ∀ c ∈ er.clauses, boxInvariant c.coordinates er.metadata.page_count) :
    (∀ c ∈ segment_clauses detect er,
        boxInvariant c.coordinates er.metadata.page_count) ∧
      ∀ (s e : Nat) (text : Str) (pages : Nat), s ≤ e → 1 ≤ pages →
        boxInvariant (estimate_coordinates_adv s e text pages) pages := by
  refine ⟨?_, fun s e text pages hse hpg =>
    estimate_coordinates_adv_inv s e text pages hpg hse⟩
  intro c hc
  unfold segment_clauses at hc
  by_cases hstrip : (stripPy er.full_text).isEmpty
  · rw [if_pos hstrip] at hc
    simp at hc
  · rw [if_neg hstrip] at hc
    simp only at hc
    by_cases hdet : (detect er.full_text).isEmpty
    · rw [if_pos hdet] at hc
      by_cases hplen : 1 < (create_paragraph_based_clauses er).length
      · rw [if_pos hplen] at hc
        unfold create_paragraph_based_clauses at hc
        by_cases hvp : (valid_paragraphs er.full_text).length ≤ 1
        · rw [if_pos hvp] at hc
          simp at hc
        · rw [if_neg hvp] at hc
          refine paraGo_boxes hp (valid_paragraphs er.full_text) 0 0 ?_ (by omega) ?_ c hc
          · rw [List.drop_zero]
            exact occSeq_valid_paragraphs _
          · intro q hq
            exact valid_paragraph_ne_nil (List.mem_filter.mp hq).2
      · rw [if_neg hplen] at hc
        unfold create_single_clause at hc
        simp only [List.mem_singleton] at hc
        subst hc
        cases hcls : er.clauses with
        | nil =>
          simp only [hcls]
          refine ⟨by norm_num, by norm_num, ?_⟩
          show (0 : Int) ≤ (er.metadata.page_count : Int) - 1
          have : (1 : Int) ≤ (er.metadata.page_count : Int) := by exact_mod_cast hp
          omega
        | cons c0 rest =>
          simp only [hcls]
          exact hcl c0 (by rw [hcls]; simp)
    · rw [if_neg hdet] at hc
      have hc2 := (List.mem_filter.mp hc).1
      exact createClausesGo_boxes hp _ c hc2

/-- Witness for C5 at the `erW4` fixture. -/
theorem C5_witness :
    (1 ≤ erW4.metadata.page_count) ∧
      (∀ c ∈ erW4.clauses, boxInvariant c.coordinates erW4.metadata.page_count) ∧
      ((∀ c ∈ segment_clauses detW4 erW4,
          boxInvariant c.coordinates erW4.metadata.page_count) ∧
        ∀ (s e : Nat) (text : Str) (pages : Nat), s ≤ e → 1 ≤ pages →
          boxInvariant (estimate_coordinates_adv s e text pages) pages) :=
  ⟨by decide, by intro c hc; simp [erW4] at hc,
    C5_bounding_box_invariant detW4 erW4 (by decide)
      (by intro c hc; simp [erW4] at hc)⟩

lemma joinNL_single (l : Str) : joinNL [l] = l := by
  simp [joinNL, List.intercalate]

lemma joinNL_cons2 (l l2 : Str) (ls : List Str) :
    joinNL (l :: l2 :: ls) = l ++ '\n' :: joinNL (l2 :: ls) := by
  show (List.intersperse ['\n'] (l :: l2 :: ls)).join = _
  rw [List.intersperse_cons_cons]
  show l ++ (['\n'] ++ (List.intersperse ['\n'] (l2 :: ls)).join) = _
  rfl

lemma consHead_ne_nil (c : Char) (ls : List Str) : consHead c ls ≠ [] := by
  cases ls <;> simp [consHead]

lemma splitNL_ne_nil (u : Str) : splitNL u ≠ [] := by
  cases u with
  | nil => simp [splitNL]
  | cons c rest =>
    by_cases h : c = '\n'
    · simp [splitNL, h]
    · simp [splitNL, h, consHead_ne_nil]

lemma splitNL_shape (u : Str) : ∃ l ls, splitNL u = l :: ls := by
  cases h : splitNL u with
  | nil => exact absurd h (splitNL_ne_nil u)
  | cons l ls => exact ⟨l, ls, rfl⟩

lemma joinNL_consHead (c : Char) (l : Str) (ls : List Str) :
    joinNL (consHead c (l :: ls)) = c :: joinNL (l :: ls) := by
  cases ls with
  | nil => simp [consHead, joinNL_single]
  | cons l2 t =>
    show joinNL ((c :: l) :: l2 :: t) = _
    rw [joinNL_cons2, joinNL_cons2]
    rfl

lemma joinNL_splitNL (u : Str) : joinNL (splitNL u) = u := by
  induction u with
  | nil => simp [splitNL, joinNL, List.intercalate]
  | cons c rest ih =>
    obtain ⟨l, ls, hs⟩ := splitNL_shape rest
    by_cases h : c = '\n'
    · subst h
      rw [show splitNL ('\n' :: rest) = [] :: splitNL rest from by simp [splitNL]]
      rw [hs, joinNL_cons2, List.nil_append, ← hs, ih]
    · simp only [splitNL, if_neg h]
      rw [hs, joinNL_consHead, ← hs, ih]

lemma splitlinesPy_cons_eval (c : Char) (rest : Str) (hc : c ≠ '\r') :
    splitlinesPy (c :: rest) =
      if lineBoundary c then [] :: splitlinesPy rest
      else consHead c (splitlinesPy rest) := by
  rw [splitlinesPy.eq_def]
  split
  · rename_i heq
    simp at heq
  · rename_i heq
    injection heq with h1 h2
    exact absurd h1 hc
  · rename_i heq
    injection heq with h1 h2
    subst h1
    subst h2
    rfl

lemma splitlinesPy_rn (rest : Str) :
    splitlinesPy ('\r' :: '\n' :: rest) = [] :: splitlinesPy rest := rfl

lemma splitlinesPy_ne_nil : ∀ (u : Str), u ≠ [] → splitlinesPy u ≠ [] := by
  intro u hu
  cases u with
  | nil => exact absurd rfl hu
  | cons c rest =>
    by_cases hc : c = '\r'
    · subst hc
      cases rest with
      | nil => decide
      | cons d r =>
        by_cases hd : d = '\n'
        · subst hd
          rw [splitlinesPy_rn]
          simp
        · rw [splitlinesPy.eq_def]
          split
          · rename_i heq
            simp at heq
          · rename_i heq
            injection heq with h1 h2
            injection h2 with h3 h4
            exact absurd h3 hd
          · rename_i heq
            injection heq with h1 h2
            subst h1
            subst h2
            split
            · simp
            · exact consHead_ne_nil _ _
    · rw [splitlinesPy_cons_eval c rest hc]
      split
      · simp
      · exact consHead_ne_nil _ _

lemma splitlinesPy_shape (u : Str) (h : u ≠ []) : ∃ l ls, splitlinesPy u = l :: ls := by
  cases hsp : splitlinesPy u with
  | nil => exact absurd hsp (splitlinesPy_ne_nil u h)
  | cons a b => exact ⟨a, b, rfl⟩

lemma splitNL_eq_splitlinesPy : ∀ (u : Str), onlyNL u →
    splitNL u = if u.getLast? = some '\n' ∨ u = [] then splitlinesPy u ++ [[]]
      else splitlinesPy u := by
  intro u
  induction u with
  | nil => intro _; simp [splitNL, splitlinesPy]
  | cons c rest ih =>
    intro h
    have hcr : c ≠ '\r' := by
      intro hc
      have h2 := h c (by simp) (by rw [hc]; decide)
      rw [hc] at h2
      exact absurd h2 (by decide)
    have honly : onlyNL rest := fun d hd hb => h d (by simp [hd]) hb
    have hih := ih honly
    rw [splitlinesPy_cons_eval c rest hcr]
    by_cases hb : c = '\n'
    · subst hb
      rw [show splitNL ('\n' :: rest) = [] :: splitNL rest from by simp [splitNL]]
      have hlb : lineBoundary '\n' = true := by decide
      simp only [hlb, if_true]
      cases rest with
      | nil => decide
      | cons d r =>
        have hgl : ('\n' :: d :: r).getLast? = (d :: r).getLast? :=
          getLast?_cons_of_ne _ _ (by simp)
        rw [hgl]
        by_cases hcond : (d :: r).getLast? = some '\n'
        · rw [if_pos (Or.inl hcond), hih, if_pos (Or.inl hcond)]
          simp [List.cons_append]
        · have hc2 : ¬((d :: r).getLast? = some '\n' ∨ '\n' :: d :: r = []) := by
            simp [hcond]
          have hc3 : ¬((d :: r).getLast? = some '\n' ∨ d :: r = []) := by
            simp [hcond]
          rw [if_neg hc2, hih, if_neg hc3]
    · have hlb : lineBoundary c = false := by
        cases hx : lineBoundary c
        · rfl
        · exact absurd (h c (by simp) hx) hb
      simp only [hlb, Bool.false_eq_true, if_false]
      rw [show splitNL (c :: rest) = consHead c (splitNL rest) from by simp [splitNL, hb]]
      cases rest with
      | nil =>
        have hc2 : ¬((c :: ([] : Str)).getLast? = some '\n' ∨ c :: ([] : Str) = []) := by
          simp [hb]
        rw [if_neg hc2]
        simp [splitNL, splitlinesPy, consHead]
      | cons d r =>
        have hgl : (c :: d :: r).getLast? = (d :: r).getLast? :=
          getLast?_cons_of_ne _ _ (by simp)
        rw [hgl]
        obtain ⟨l0, ls0, h0⟩ := splitlinesPy_shape (d :: r) (by simp)
        by_cases hcond : (d :: r).getLast? = some '\n'
        · rw [if_pos (Or.inl hcond), hih, if_pos (Or.inl hcond), h0]
          simp [consHead, List.cons_append]
        · have hc2 : ¬((d :: r).getLast? = some '\n' ∨ c :: d :: r = []) := by
            simp [hcond]
          have hc3 : ¬((d :: r).getLast? = some '\n' ∨ d :: r = []) := by
            simp [hcond]
          rw [if_neg hc2, hih, if_neg hc3]

lemma head?_dropWhile_not {p : Char → Bool} : ∀ (l : Str) (c : Char),
    (l.dropWhile p).head? = some c → p c = false := by
  intro l
  induction l with
  | nil => intro c hc; simp at hc
  | cons a t ih =>
    intro c hc
    rw [List.dropWhile_cons] at hc
    by_cases ha : p a = true
    · rw [if_pos ha] at hc
      exact ih c hc
    · rw [if_neg ha] at hc
      simp at hc
      rw [← hc]
      exact Bool.eq_false_iff.mpr ha

lemma lastOK_rstripPy (x : Str) : lastOK (rstripPy x) := by
  intro c hc
  unfold rstripPy at hc
  rw [List.getLast?_reverse] at hc
  exact head?_dropWhile_not _ c hc

lemma rstripPy_eq_self_of_lastOK {l : Str} (h : lastOK l) : rstripPy l = l := by
  unfold rstripPy
  cases hr : l.reverse with
  | nil =>
    rw [List.dropWhile_nil]
    rw [← hr, List.reverse_reverse]
  | cons a t =>
    have ha : pyWs a = false := by
      apply h
      rw [← List.head?_reverse, hr]
      rfl
    rw [List.dropWhile_cons, if_neg (by simp [ha]), ← hr, List.reverse_reverse]

lemma lastOK_tail {c : Char} {l : Str} (h : lastOK (c :: l)) : lastOK l := by
  intro d hd
  apply h
  rw [getLast?_cons_of_ne c l]
  · exact hd
  · intro h0
    rw [h0] at hd
    simp at hd

lemma splitNL_noNL : ∀ (u : Str), ∀ l ∈ splitNL u, noNL l := by
  intro u
  induction u with
  | nil =>
    intro l hl
    rw [show splitNL [] = [[]] from rfl] at hl
    simp at hl
    subst hl
    intro c hc
    simp at hc
  | cons c rest ih =>
    intro l hl
    by_cases h : c = '\n'
    · subst h
      rw [show splitNL ('\n' :: rest) = [] :: splitNL rest from by simp [splitNL]] at hl
      rcases List.mem_cons.mp hl with h1 | h1
      · subst h1
        intro d hd
        simp at hd
      · exact ih l h1
    · rw [show splitNL (c :: rest) = consHead c (splitNL rest) from by
        simp [splitNL, h]] at hl
      obtain ⟨l0, ls0, h0⟩ := splitNL_shape rest
      rw [h0] at hl
      rcases List.mem_cons.mp hl with h1 | h1
      · subst h1
        intro d hd
        rcases List.mem_cons.mp hd with h2 | h2
        · rw [h2]; exact h
        · exact ih l0 (by rw [h0]; simp) d h2
      · exact ih l (by rw [h0]; simp [h1])

lemma splitNL_cons_ne (d : Char) (r : Str) (hd : d ≠ '\n') :
    ∃ l ls, splitNL (d :: r) = (d :: l) :: ls := by
  rw [show splitNL (d :: r) = consHead d (splitNL r) from by simp [splitNL, hd]]
  obtain ⟨l0, ls0, h0⟩ := splitNL_shape r
  rw [h0]
  exact ⟨l0, ls0, rfl⟩

lemma splitNL_lastOK : ∀ (u : Str), nfc u → ∀ l ∈ splitNL u, lastOK l := by
  intro u
  induction u with
  | nil =>
    intro _ l hl
    rw [show splitNL [] = [[]] from rfl] at hl
    simp at hl
    subst hl
    intro c hc
    simp at hc
  | cons c rest ih =>
    intro h l hl
    obtain ⟨hok, hrest⟩ : okPair c rest.head? ∧ nfc rest := h
    by_cases hb : c = '\n'
    · subst hb
      rw [show splitNL ('\n' :: rest) = [] :: splitNL rest from by simp [splitNL]] at hl
      rcases List.mem_cons.mp hl with h1 | h1
      · subst h1
        intro d hd
        simp at hd
      · exact ih hrest l h1
    · rw [show splitNL (c :: rest) = consHead c (splitNL rest) from by
        simp [splitNL, hb]] at hl
      obtain ⟨l0, ls0, h0⟩ := splitNL_shape rest
      rw [h0] at hl
      rcases List.mem_cons.mp hl with h1 | h1
      · subst h1
        cases hl0 : l0 with
        | nil =>
          intro d hd
          simp at hd
          subst hd
          have hwx : pyWsX c = false := by
            cases rest with
            | nil => exact hok
            | cons e r2 =>
              by_cases he : e = '\n'
              · subst he
                by_contra hx
                exact hok ⟨Bool.not_eq_false _ |>.mp hx, rfl⟩
              · obtain ⟨l1, ls1, h1⟩ := splitNL_cons_ne e r2 he
                rw [h1] at h0
                injection h0 with h2 h3
                rw [hl0] at h2
                simp at h2
          unfold pyWsX at hwx
          rcases Bool.and_eq_false_iff.mp hwx with h2 | h2
          · exact h2
          · exact absurd (by simpa using h2) hb
        | cons e l1 =>
          intro d hd
          rw [getLast?_cons_of_ne c (e :: l1) (by simp)] at hd
          have := ih hrest l0 (by rw [h0]; simp)
          rw [hl0] at this
          exact this d hd
      · exact ih hrest l (by rw [h0]; simp [h1])

lemma leadNL_cons_nl (rest : Str) : leadNL ('\n' :: rest) = leadNL rest + 1 := by
  simp [leadNL, List.takeWhile_cons]

lemma leadNL_cons_ne (c : Char) (rest : Str) (h : c ≠ '\n') : leadNL (c :: rest) = 0 := by
  simp [leadNL, List.takeWhile_cons, h]

lemma hasTriple_cons (c : Char) (rest : Str) :
    hasTriple (c :: rest) =
      (((c == '\n')) && decide (2 ≤ leadNL rest) || hasTriple rest) := rfl

lemma hasTriple_tail {c : Char} {rest : Str} (h : hasTriple (c :: rest) = false) :
    hasTriple rest = false := by
  rw [hasTriple_cons] at h
  exact (Bool.or_eq_false_iff.mp h).2

lemma leadNL_le_two_of_no_triple : ∀ (w : Str), hasTriple w = false → leadNL w ≤ 2 := by
  intro w hw
  cases w with
  | nil => simp [leadNL]
  | cons c rest =>
    by_cases hc : c = '\n'
    · subst hc
      rw [leadNL_cons_nl]
      rw [hasTriple_cons] at hw
      have h2 := (Bool.or_eq_false_iff.mp hw).1
      have h3 : decide (2 ≤ leadNL rest) = false := by
        simpa using h2
      have h4 : ¬ 2 ≤ leadNL rest := of_decide_eq_false h3
      omega
    · rw [leadNL_cons_ne c rest hc]
      omega

lemma hasTriple_replicate_prepend (t : Str) (c : Char) (hc : c ≠ '\n') :
    ∀ (k : Nat), k ≤ 2 →
      hasTriple (List.replicate k '\n' ++ c :: t) = hasTriple t := by
  have hbase : hasTriple (c :: t) = hasTriple t := by
    rw [hasTriple_cons]
    simp [hc]
  have hlead : leadNL (c :: t) = 0 := leadNL_cons_ne c t hc
  intro k hk
  interval_cases k
  · simpa using hbase
  · show hasTriple ('\n' :: c :: t) = hasTriple t
    rw [hasTriple_cons]
    simp [hlead, hbase]
  · show hasTriple ('\n' :: '\n' :: c :: t) = hasTriple t
    rw [hasTriple_cons, hasTriple_cons]
    simp [hlead, leadNL_cons_nl, hbase]

lemma collapseNL3Aux_id : ∀ (v : Str) (p : Nat), p + leadNL v ≤ 2 →
    hasTriple v = false → collapseNL3Aux p v = List.replicate p '\n' ++ v := by
  intro v
  induction v with
  | nil =>
    intro p hp _
    show List.replicate (min p 2) '\n' = _
    rw [Nat.min_eq_left (by omega)]
    simp
  | cons c rest ih =>
    intro p hp hv
    by_cases hc : c = '\n'
    · subst hc
      rw [leadNL_cons_nl] at hp
      rw [show collapseNL3Aux p ('\n' :: rest) = collapseNL3Aux (p + 1) rest from by
        simp [collapseNL3Aux]]
      rw [ih (p + 1) (by omega) (hasTriple_tail hv)]
      rw [List.replicate_succ']
      simp
    · rw [show collapseNL3Aux p (c :: rest) =
          List.replicate (min p 2) '\n' ++ c :: collapseNL3Aux 0 rest from by
        simp [collapseNL3Aux, hc]]
      have hrest : hasTriple rest = false := hasTriple_tail hv
      rw [ih 0 (by have := leadNL_le_two_of_no_triple rest hrest; omega) hrest]
      rw [Nat.min_eq_left (by omega)]
      simp

lemma collapseNL3_id {v : Str} (h : hasTriple v = false) : collapseNL3 v = v := by
  unfold collapseNL3
  rw [collapseNL3Aux_id v 0 (by
    have := leadNL_le_two_of_no_triple v h
    omega) h]
  simp

lemma leadNL_replicate_append (x : Str) : ∀ (k : Nat),
    leadNL (List.replicate k '\n' ++ x) = k + leadNL x := by
  intro k
  induction k with
  | zero => simp
  | succ n ih =>
    rw [List.replicate_succ]
    show leadNL ('\n' :: (List.replicate n '\n' ++ x)) = _
    rw [leadNL_cons_nl, ih]
    omega

lemma hasTriple_replicate (k : Nat) (hk : k ≤ 2) :
    hasTriple (List.replicate k '\n') = false := by
  interval_cases k <;> decide

lemma collapseNL3Aux_noTriple : ∀ (w : Str) (p : Nat),
    hasTriple (collapseNL3Aux p w) = false ∧ leadNL (collapseNL3Aux p w) ≤ 2 := by
  intro w
  induction w with
  | nil =>
    intro p
    show hasTriple (List.replicate (min p 2) '\n') = false ∧
      leadNL (List.replicate (min p 2) '\n') ≤ 2
    constructor
    · exact hasTriple_replicate _ (by omega)
    · rw [show List.replicate (min p 2) '\n' =
          List.replicate (min p 2) '\n' ++ ([] : Str) from by simp]
      rw [leadNL_replicate_append]
      have hz : leadNL ([] : Str) = 0 := rfl
      omega
  | cons c rest ih =>
    intro p
    by_cases hc : c = '\n'
    · subst hc
      rw [show collapseNL3Aux p ('\n' :: rest) = collapseNL3Aux (p + 1) rest from by
        simp [collapseNL3Aux]]
      exact ih (p + 1)
    · rw [show collapseNL3Aux p (c :: rest) =
          List.replicate (min p 2) '\n' ++ c :: collapseNL3Aux 0 rest from by
        simp [collapseNL3Aux, hc]]
      obtain ⟨ih1, ih2⟩ := ih 0
      constructor
      · rw [hasTriple_replicate_prepend _ c hc _ (by omega)]
        exact ih1
      · rw [leadNL_replicate_append, leadNL_cons_ne c _ hc]
        omega

lemma collapseNL3Aux_head : ∀ (w : Str) (p : Nat), 1 ≤ p →
    (collapseNL3Aux p w).head? = some '\n' := by
  intro w
  induction w with
  | nil =>
    intro p hp
    show (List.replicate (min p 2) '\n').head? = some '\n'
    have h2 : min p 2 = 1 ∨ min p 2 = 2 := by omega
    rcases h2 with h | h <;> rw [h] <;> rfl
  | cons c rest ih =>
    intro p hp
    by_cases hc : c = '\n'
    · subst hc
      rw [show collapseNL3Aux p ('\n' :: rest) = collapseNL3Aux (p + 1) rest from by
        simp [collapseNL3Aux]]
      exact ih (p + 1) (by omega)
    · rw [show collapseNL3Aux p (c :: rest) =
          List.replicate (min p 2) '\n' ++ c :: collapseNL3Aux 0 rest from by
        simp [collapseNL3Aux, hc]]
      have h2 : min p 2 = 1 ∨ min p 2 = 2 := by omega
      rcases h2 with h | h <;> rw [h] <;> rfl

lemma okPair_nl (x : Option Char) : okPair '\n' x := by
  cases x with
  | none => show pyWsX '\n' = false; decide
  | some d =>
    show ¬(pyWsX '\n' = true ∧ d = '\n')
    intro h
    exact absurd h.1 (by decide)

lemma nfc_replicate_prepend (v : Str) (hv : nfc v) : ∀ (k : Nat),
    nfc (List.replicate k '\n' ++ v) := by
  intro k
  induction k with
  | zero => simpa using hv
  | succ n ih =>
    rw [List.replicate_succ]
    show nfc ('\n' :: (List.replicate n '\n' ++ v))
    exact ⟨okPair_nl _, ih⟩

lemma nfc_collapseNL3Aux : ∀ (w : Str), nfc w → ∀ (p : Nat),
    nfc (collapseNL3Aux p w) := by
  intro w
  induction w with
  | nil =>
    intro _ p
    show nfc (List.replicate (min p 2) '\n')
    have h := nfc_replicate_prepend [] trivial (min p 2)
    simpa using h
  | cons c rest ih =>
    intro h p
    obtain ⟨hok, hrest⟩ : okPair c rest.head? ∧ nfc rest := h
    by_cases hc : c = '\n'
    · subst hc
      rw [show collapseNL3Aux p ('\n' :: rest) = collapseNL3Aux (p + 1) rest from by
        simp [collapseNL3Aux]]
      exact ih hrest (p + 1)
    · rw [show collapseNL3Aux p (c :: rest) =
          List.replicate (min p 2) '\n' ++ c :: collapseNL3Aux 0 rest from by
        simp [collapseNL3Aux, hc]]
      apply nfc_replicate_prepend
      refine ⟨?_, ih hrest 0⟩
      cases rest with
      | nil =>
        have hz : collapseNL3Aux 0 ([] : Str) = [] := rfl
        rw [hz]
        exact hok
      | cons d r2 =>
        by_cases hd : d = '\n'
        · subst hd
          have hh : (collapseNL3Aux 0 ('\n' :: r2)).head? = some '\n' := by
            rw [show collapseNL3Aux 0 ('\n' :: r2) = collapseNL3Aux 1 r2 from by
              simp [collapseNL3Aux]]
            exact collapseNL3Aux_head r2 1 (by omega)
          rw [hh]
          exact hok
        · have hh : collapseNL3Aux 0 (d :: r2) = d :: collapseNL3Aux 0 r2 := by
            simp [collapseNL3Aux, hd]
          rw [hh]
          exact hok

lemma nfc_append : ∀ (l w : Str), noNL l → lastOK l → nfc w → nfc (l ++ w) := by
  intro l
  induction l with
  | nil =>
    intro w _ _ hw
    simpa using hw
  | cons c l2 ih =>
    intro w hn hl hw
    show nfc (c :: (l2 ++ w))
    refine ⟨?_, ih w (fun d hd => hn d (by simp [hd])) (lastOK_tail hl) hw⟩
    cases l2 with
    | cons e l3 =>
      show okPair c (some e)
      intro hpair
      exact hn e (by simp) hpair.2
    | nil =>
      have hc : pyWs c = false := hl c (by simp)
      show okPair c w.head?
      cases hw0 : w.head? with
      | none =>
        show pyWsX c = false
        unfold pyWsX
        simp [hc]
      | some d =>
        show ¬(pyWsX c = true ∧ d = '\n')
        intro hp
        have := hp.1
        unfold pyWsX at this
        rw [hc] at this
        simp at this

lemma nfc_joinNL : ∀ (ls : List Str), (∀ l ∈ ls, noNL l) → (∀ l ∈ ls, lastOK l) →
    nfc (joinNL ls) := by
  intro ls
  induction ls with
  | nil =>
    intro _ _
    rw [show joinNL ([] : List Str) = [] from rfl]
    trivial
  | cons l t ih =>
    intro h1 h2
    cases t with
    | nil =>
      rw [joinNL_single]
      have h := nfc_append l [] (h1 l (by simp)) (h2 l (by simp)) trivial
      simpa using h
    | cons l2 t2 =>
      rw [joinNL_cons2]
      apply nfc_append l _ (h1 l (by simp)) (h2 l (by simp))
      show nfc ('\n' :: joinNL (l2 :: t2))
      exact ⟨okPair_nl _, ih (fun x hx => h1 x (by simp [hx]))
        (fun x hx => h2 x (by simp [hx]))⟩

lemma mem_collapseNL3Aux : ∀ (v : Str) (p : Nat) (c : Char),
    c ∈ collapseNL3Aux p v → c = '\n' ∨ c ∈ v := by
  intro v
  induction v with
  | nil =>
    intro p c hc
    exact Or.inl (List.eq_of_mem_replicate hc)
  | cons d r ih =>
    intro p c hc
    by_cases hd : d = '\n'
    · subst hd
      rw [show collapseNL3Aux p ('\n' :: r) = collapseNL3Aux (p + 1) r from by
        simp [collapseNL3Aux]] at hc
      rcases ih (p + 1) c hc with h | h
      · exact Or.inl h
      · exact Or.inr (by simp [h])
    · rw [show collapseNL3Aux p (d :: r) =
          List.replicate (min p 2) '\n' ++ d :: collapseNL3Aux 0 r from by
        simp [collapseNL3Aux, hd]] at hc
      rcases List.mem_append.mp hc with h | h
      · exact Or.inl (List.eq_of_mem_replicate h)
      · rcases List.mem_cons.mp h with h2 | h2
        · exact Or.inr (by simp [h2])
        · rcases ih 0 c h2 with h3 | h3
          · exact Or.inl h3
          · exact Or.inr (by simp [h3])

lemma mem_joinNL : ∀ (ls : List Str) (c : Char), c ∈ joinNL ls →
    c = '\n' ∨ ∃ l ∈ ls, c ∈ l := by
  intro ls
  induction ls with
  | nil =>
    intro c hc
    rw [show joinNL ([] : List Str) = [] from rfl] at hc
    simp at hc
  | cons l t ih =>
    intro c hc
    cases t with
    | nil =>
      rw [joinNL_single] at hc
      exact Or.inr ⟨l, by simp, hc⟩
    | cons l2 t2 =>
      rw [joinNL_cons2] at hc
      rcases List.mem_append.mp hc with h | h
      · exact Or.inr ⟨l, by simp, h⟩
      · rcases List.mem_cons.mp h with h2 | h2
        · exact Or.inl h2
        · rcases ih c h2 with h3 | ⟨l3, hl3, hc3⟩
          · exact Or.inl h3
          · exact Or.inr ⟨l3, by simp [hl3], hc3⟩

lemma mem_dropWhile_sub {p : Char → Bool} : ∀ (l : Str), ∀ c ∈ l.dropWhile p, c ∈ l := by
  intro l
  induction l with
  | nil => intro c hc; simpa using hc
  | cons a t ih =>
    intro c hc
    rw [List.dropWhile_cons] at hc
    by_cases ha : p a = true
    · rw [if_pos ha] at hc
      exact by simp [ih c hc]
    · rw [if_neg ha] at hc
      exact hc

lemma mem_rstripPy {c : Char} {l : Str} (h : c ∈ rstripPy l) : c ∈ l := by
  unfold rstripPy at h
  rw [List.mem_reverse] at h
  exact List.mem_reverse.mp (mem_dropWhile_sub l.reverse c h)

lemma splitlinesPy_frag_chars : ∀ (n : Nat) (s : Str), s.length ≤ n →
    ∀ l ∈ splitlinesPy s, ∀ c ∈ l, lineBoundary c = false ∧ c ∈ s := by
  intro n
  induction n with
  | zero =>
    intro s hs l hl
    have hnil : s = [] := List.eq_nil_of_length_eq_zero (by omega)
    subst hnil
    rw [show splitlinesPy [] = [] from rfl] at hl
    simp at hl
  | succ n ih =>
    intro s hs l hl c hc
    cases s with
    | nil =>
      rw [show splitlinesPy [] = [] from rfl] at hl
      simp at hl
    | cons a rest =>
      rw [List.length_cons] at hs
      by_cases ha : a = '\r'
      · subst ha
        cases rest with
        | nil =>
          have he : splitlinesPy ['\r'] = [[]] := by decide
          rw [he] at hl
          simp at hl
          subst hl
          simp at hc
        | cons d r =>
          rw [List.length_cons] at hs
          by_cases hd : d = '\n'
          · subst hd
            rw [splitlinesPy_rn] at hl
            rcases List.mem_cons.mp hl with h1 | h1
            · subst h1
              simp at hc
            · have h2 := ih r (by omega) l h1 c hc
              exact ⟨h2.1, by simp [h2.2]⟩
          · rw [splitlinesPy.eq_def] at hl
            split at hl
            · rename_i heq
              simp at heq
            · rename_i heq
              injection heq with g1 g2
              injection g2 with g3 g4
              exact absurd g3 hd
            · rename_i heq
              injection heq with g1 g2
              subst g1
              subst g2
              rw [if_pos (by decide : lineBoundary '\r' = true)] at hl
              rcases List.mem_cons.mp hl with h1 | h1
              · subst h1
                simp at hc
              · have h2 := ih (d :: r) (by simp; omega) l h1 c hc
                exact ⟨h2.1, by simp [h2.2]⟩
      · rw [splitlinesPy_cons_eval a rest ha] at hl
        by_cases hb : lineBoundary a = true
        · rw [if_pos hb] at hl
          rcases List.mem_cons.mp hl with h1 | h1
          · subst h1
            simp at hc
          · have h2 := ih rest (by omega) l h1 c hc
            exact ⟨h2.1, by simp [h2.2]⟩
        · rw [if_neg hb] at hl
          cases hsp : splitlinesPy rest with
          | nil =>
            rw [hsp] at hl
            simp [consHead] at hl
            subst hl
            simp at hc
            subst hc
            exact ⟨by simpa using hb, by simp⟩
          | cons l0 ls0 =>
            rw [hsp] at hl
            simp only [consHead] at hl
            rcases List.mem_cons.mp hl with h1 | h1
            · subst h1
              rcases List.mem_cons.mp hc with h2 | h2
              · subst h2
                exact ⟨by simpa using hb, by simp⟩
              · have h3 := ih rest (by omega) l0 (by rw [hsp]; simp) c h2
                exact ⟨h3.1, by simp [h3.2]⟩
            · have h3 := ih rest (by omega) l (by rw [hsp]; simp [h1]) c hc
              exact ⟨h3.1, by simp [h3.2]⟩

lemma joinNL_append_empty : ∀ (ls : List Str), ls ≠ [] →
    joinNL (ls ++ [[]]) = joinNL ls ++ ['\n'] := by
  intro ls
  induction ls with
  | nil => intro h; exact absurd rfl h
  | cons l t ih =>
    intro _
    cases t with
    | nil =>
      show joinNL [l, []] = joinNL [l] ++ ['\n']
      rw [joinNL_cons2, joinNL_single, joinNL_single]
    | cons l2 t2 =>
      rw [show (l :: l2 :: t2) ++ [[]] = l :: (l2 :: (t2 ++ [[]])) from rfl]
      rw [joinNL_cons2]
      rw [show l2 :: (t2 ++ [[]]) = (l2 :: t2) ++ [[]] from rfl]
      rw [ih (by simp), joinNL_cons2]
      simp

lemma leadNL_le_append : ∀ (a b : Str), leadNL a ≤ leadNL (a ++ b) := by
  intro a b
  induction a with
  | nil =>
    have h : leadNL ([] : Str) = 0 := rfl
    omega
  | cons c a2 ih =>
    by_cases hc : c = '\n'
    · subst hc
      rw [show ('\n' :: a2) ++ b = '\n' :: (a2 ++ b) from rfl]
      rw [leadNL_cons_nl, leadNL_cons_nl]
      omega
    · rw [leadNL_cons_ne c a2 hc]
      omega

lemma hasTriple_append_t : ∀ (a b : Str), hasTriple a = true →
    hasTriple (a ++ b) = true := by
  intro a b
  induction a with
  | nil =>
    intro h
    simp [hasTriple] at h
  | cons c a2 ih =>
    intro h
    rw [hasTriple_cons] at h
    rw [show (c :: a2) ++ b = c :: (a2 ++ b) from rfl, hasTriple_cons]
    simp only [Bool.or_eq_true] at h ⊢
    rcases h with h1 | h1
    · left
      simp only [Bool.and_eq_true] at h1 ⊢
      refine ⟨h1.1, ?_⟩
      have h3 := of_decide_eq_true h1.2
      have h4 := leadNL_le_append a2 b
      exact decide_eq_true (by omega)
    · exact Or.inr (ih h1)

lemma hasTriple_dropLast {u : Str} (h : hasTriple u = false) :
    hasTriple u.dropLast = false := by
  by_contra hx
  have h1 : hasTriple u.dropLast = true := by
    cases h2 : hasTriple u.dropLast
    · exact absurd h2 hx
    · rfl
  cases u with
  | nil =>
    rw [show (([] : Str)).dropLast = [] from rfl] at h1
    rw [show hasTriple [] = false from rfl] at h1
    simp at h1
  | cons d r =>
    have hne : d :: r ≠ [] := by simp
    have h3 := hasTriple_append_t ((d :: r).dropLast) [(d :: r).getLast hne] h1
    rw [List.dropLast_append_getLast hne] at h3
    rw [h] at h3
    simp at h3

lemma joinNL_splitlinesPy_of_nf {u : Str} (h2 : onlyNL u) :
    joinNL (splitlinesPy u) = dropOneTrailingNL u := by
  have hsp := splitNL_eq_splitlinesPy u h2
  unfold dropOneTrailingNL
  by_cases hend : u.getLast? = some '\n'
  · rw [if_pos hend]
    rw [if_pos (Or.inl hend)] at hsp
    have hne : u ≠ [] := by
      intro h0
      rw [h0] at hend
      simp at hend
    have hnsp : splitlinesPy u ≠ [] := splitlinesPy_ne_nil u hne
    have hj : joinNL (splitlinesPy u ++ [[]]) = joinNL (splitlinesPy u) ++ ['\n'] :=
      joinNL_append_empty _ hnsp
    have hu : joinNL (splitNL u) = u := joinNL_splitNL u
    rw [hsp, hj] at hu
    conv_rhs => rw [← hu]
    rw [List.dropLast_concat]
  · rw [if_neg hend]
    by_cases hnil : u = []
    · subst hnil
      rfl
    · rw [if_neg (by simp [hend, hnil])] at hsp
      rw [← hsp, joinNL_splitNL]

lemma map_rstrip_splitlinesPy_of_nf {u : Str} (h1 : nfc u) (h2 : onlyNL u) :
    (splitlinesPy u).map rstripPy = splitlinesPy u := by
  have hmem : ∀ l ∈ splitlinesPy u, rstripPy l = l := by
    intro l hl
    have hl2 : l ∈ splitNL u := by
      have hsp := splitNL_eq_splitlinesPy u h2
      by_cases hc : u.getLast? = some '\n' ∨ u = []
      · rw [if_pos hc] at hsp
        rw [hsp]
        exact List.mem_append_left _ hl
      · rw [if_neg hc] at hsp
        rw [hsp]
        exact hl
    exact rstripPy_eq_self_of_lastOK (splitNL_lastOK u h1 l hl2)
  calc (splitlinesPy u).map rstripPy = (splitlinesPy u).map id :=
        List.map_congr_left hmem
    _ = splitlinesPy u := List.map_id _

lemma normalize_of_nf {u : Str} (h1 : nfc u) (h2 : onlyNL u)
    (h3 : ∀ c ∈ u, c ≠ '\xa0') (h4 : hasTriple u = false) :
    normalize_text u = dropOneTrailingNL u := by
  unfold normalize_text
  have hA : u.map nbspToSpace = u := by
    have hid : ∀ c ∈ u, nbspToSpace c = c := by
      intro c hc
      unfold nbspToSpace
      rw [if_neg (h3 c hc)]
    calc u.map nbspToSpace = u.map id := List.map_congr_left hid
      _ = u := List.map_id u
  rw [hA, map_rstrip_splitlinesPy_of_nf h1 h2, joinNL_splitlinesPy_of_nf h2]
  apply collapseNL3_id
  unfold dropOneTrailingNL
  by_cases hend : u.getLast? = some '\n'
  · rw [if_pos hend]
    exact hasTriple_dropLast h4
  · rw [if_neg hend]
    exact h4

lemma normalize_nf (cs : Str) :
    nfc (normalize_text cs) ∧ onlyNL (normalize_text cs) ∧
      (∀ c ∈ normalize_text cs, c ≠ '\xa0') ∧
      hasTriple (normalize_text cs) = false := by
  unfold normalize_text collapseNL3
  refine ⟨?_, ?_, ?_, ?_⟩
  · apply nfc_collapseNL3Aux
    apply nfc_joinNL
    · intro l hl
      rw [List.mem_map] at hl
      obtain ⟨l0, hl0, hrfl⟩ := hl
      subst hrfl
      intro c hc
      have hc0 := mem_rstripPy hc
      have hfr := splitlinesPy_frag_chars (cs.map nbspToSpace).length _ le_rfl l0 hl0 c hc0
      intro hceq
      rw [hceq] at hfr
      exact absurd hfr.1 (by decide)
    · intro l hl
      rw [List.mem_map] at hl
      obtain ⟨l0, hl0, hrfl⟩ := hl
      subst hrfl
      exact lastOK_rstripPy l0
  · intro c hc hb
    rcases mem_collapseNL3Aux _ 0 c hc with h | h
    · exact h
    · rcases mem_joinNL _ c h with hnl | ⟨l, hl, hcl⟩
      · exact hnl
      · rw [List.mem_map] at hl
        obtain ⟨l0, hl0, hrfl⟩ := hl
        subst hrfl
        have hfr := splitlinesPy_frag_chars (cs.map nbspToSpace).length _ le_rfl l0 hl0 c
          (mem_rstripPy hcl)
        exact absurd hb (by simp [hfr.1])
  · intro c hc hceq
    rcases mem_collapseNL3Aux _ 0 c hc with h | h
    · rw [hceq] at h
      exact absurd h (by decide)
    · rcases mem_joinNL _ c h with hnl | ⟨l, hl, hcl⟩
      · rw [hceq] at hnl
        exact absurd hnl (by decide)
      · rw [List.mem_map] at hl
        obtain ⟨l0, hl0, hrfl⟩ := hl
        subst hrfl
        have hfr := (splitlinesPy_frag_chars (cs.map nbspToSpace).length _ le_rfl l0 hl0 c
          (mem_rstripPy hcl)).2
        rw [List.mem_map] at hfr
        obtain ⟨d, _, hdeq⟩ := hfr
        unfold nbspToSpace at hdeq
        by_cases hdx : d = '\xa0'
        · rw [if_pos hdx] at hdeq
          rw [← hdeq] at hceq
          exact absurd hceq (by decide)
        · rw [if_neg hdx] at hdeq
          exact hdx (hdeq.trans hceq)
  · exact (collapseNL3Aux_noTriple _ 0).1

/-- Claim C7 counterexample: the normalizer is not idempotent.  On the
input consisting of two newline characters the first pass yields a single
newline (the two empty `splitlines` fragments joined), and the second
pass yields the empty string, so normalizing twice differs from
normalizing once. -/
theorem C7_counterexample :
    normalize_text (normalize_text ('\n' :: '\n' :: [])) ≠
      normalize_text ('\n' :: '\n' :: []) := by decide

/-- Claim C7, amended: the normalizer is a total pure function, and
applying it twice equals applying it once followed by the removal of a
single trailing newline when one is present; in particular it is
idempotent exactly on the inputs whose normalized form does not end in a
newline. -/
theorem C7_normalize_idempotent_mod_trailing_newline (cs : Str) :
    normalize_text (normalize_text cs) = dropOneTrailingNL (normalize_text cs) := by
  obtain ⟨h1, h2, h3, h4⟩ := normalize_nf cs
  exact normalize_of_nf h1 h2 h3 h4
